import Mathlib

/-!
Verification of the static wheel-index pipeline implemented by
`scripts/publish_release.py` and `scripts/generate_index.py`.

The development is a shallow embedding: the Python functions are translated
into executable Lean definitions (JSON values become an inductive type,
file-system state becomes an explicit input, the publish entry point becomes
a pure function returning an effect trace together with an outcome), and the
behavioural properties from the repository specification are proved about
those definitions.
-/

namespace WhlIndex

/-! ## Naming Normalizer: `canonicalize_package_name`

Both scripts define
`canonicalize_package_name(name) = re.sub(r"[-_.]+", "-", name).lower()`.
We model it on the character list of the string; `str.lower` is modelled by
`Char.toLower`, which agrees with Python on the ASCII range (no artifact of
this repository uses characters outside it).
-/

/-- Characters matched by the character class of `re.sub(r"[-_.]+", "-", name)`. -/
def isSepChar (c : Char) : Bool := c = '-' || c = '_' || c = '.'

/-- Executable translation of `re.sub(r"[-_.]+", "-", name)`: a single pass
over the characters; the flag records whether we are inside a separator run
whose dash has already been emitted. -/
def subSeps : Bool → List Char → List Char
  | _, [] => []
  | inRun, c :: rest =>
    if isSepChar c then
      if inRun then subSeps true rest else '-' :: subSeps true rest
    else c :: subSeps false rest

/-- Model of `canonicalize_package_name` (identical in both scripts). -/
def canonicalize_package_name (s : String) : String :=
  String.mk ((subSeps false s.data).map Char.toLower)

/-- The substitution `re.sub(r"[-_.]+", "-", ·)` phrased the way the regex
reads: every maximal run of separator characters is replaced by one dash. -/
def subSepsRuns : List Char → List Char
  | [] => []
  | c :: rest =>
    if isSepChar c then '-' :: subSepsRuns (rest.dropWhile isSepChar)
    else c :: subSepsRuns rest
termination_by l => l.length
decreasing_by
  · exact Nat.lt_succ_of_le (List.Sublist.length_le (List.dropWhile_sublist _))
  · exact Nat.lt_succ_of_le (Nat.le_refl _)

@[simp] lemma subSepsRuns_nil : subSepsRuns [] = [] := by
  rw [subSepsRuns.eq_def]

lemma subSepsRuns_cons (c : Char) (rest : List Char) :
    subSepsRuns (c :: rest)
      = if isSepChar c then '-' :: subSepsRuns (rest.dropWhile isSepChar)
        else c :: subSepsRuns rest := by
  rw [subSepsRuns.eq_def]

/-- The one-pass translation agrees with the maximal-run formulation. -/
lemma subSeps_eq_runs : ∀ (l : List Char) (b : Bool),
    subSeps b l = if b then subSepsRuns (l.dropWhile isSepChar) else subSepsRuns l := by
  intro l
  induction l with
  | nil => intro b; cases b <;> simp [subSeps]
  | cons c rest ih =>
    intro b
    by_cases h : isSepChar c = true
    · cases b <;>
        simp [subSeps, h, subSepsRuns_cons, List.dropWhile_cons_of_pos h, ih]
    · cases b <;>
        simp [subSeps, h, subSepsRuns_cons, List.dropWhile_cons, ih]

/-- Step function of the specification-style formulation below: a left fold
whose state records whether the previous character belonged to a separator
run. -/
def collapseStep (p : List Char × Bool) (c : Char) : List Char × Bool :=
  if isSepChar c then (if p.2 then p else ('-' :: p.1, true))
  else (c :: p.1, false)

/-- The Naming Normalizer as worded in the specification: collapse any run of
the characters dash, underscore, dot into a single dash, then lowercase the
result.  Written as a left fold over the characters with an explicit
accumulator, in contrast to the recursions above. -/
def canonicalizeSpec (s : String) : String :=
  String.mk ((s.data.foldl collapseStep ([], false)).1.reverse.map Char.toLower)

lemma foldl_collapseStep (cs : List Char) :
    ∀ (acc : List Char) (b : Bool),
      (cs.foldl collapseStep (acc, b)).1.reverse
        = acc.reverse ++ subSepsRuns (if b then cs.dropWhile isSepChar else cs) := by
  induction cs with
  | nil =>
    intro acc b
    cases b <;> simp
  | cons c rest ih =>
    intro acc b
    by_cases h : isSepChar c = true
    · cases b with
      | true =>
        have hstep : collapseStep (acc, true) c = (acc, true) := by
          simp [collapseStep, h]
        simp only [List.foldl_cons, hstep, ih acc true]
        simp [List.dropWhile_cons_of_pos h]
      | false =>
        have hstep : collapseStep (acc, false) c = ('-' :: acc, true) := by
          simp [collapseStep, h]
        simp only [List.foldl_cons, hstep, ih ('-' :: acc) true]
        simp [subSepsRuns_cons, h, List.append_assoc]
    · cases b with
      | true =>
        have hstep : collapseStep (acc, true) c = (c :: acc, false) := by
          simp [collapseStep, h]
        simp only [List.foldl_cons, hstep, ih (c :: acc) false]
        simp [subSepsRuns_cons, h, List.append_assoc, List.dropWhile_cons]
      | false =>
        have hstep : collapseStep (acc, false) c = (c :: acc, false) := by
          simp [collapseStep, h]
        simp only [List.foldl_cons, hstep, ih (c :: acc) false]
        simp [subSepsRuns_cons, h, List.append_assoc]

lemma canonicalize_eq_spec (s : String) :
    canonicalize_package_name s = canonicalizeSpec s := by
  unfold canonicalize_package_name canonicalizeSpec
  have h := foldl_collapseStep s.data [] false
  simp only [if_neg Bool.false_ne_true] at h
  rw [h, subSeps_eq_runs]
  simp

/-! ### Character-level facts about `Char.toLower` -/

lemma toNat_ofNat_of_small {n : Nat} (h : n < 55296) : (Char.ofNat n).toNat = n := by
  rw [Char.ofNat, dif_pos (Or.inl h)]
  rfl

lemma char_eq_iff_toNat {c d : Char} : c = d ↔ c.toNat = d.toNat := by
  constructor
  · intro h; rw [h]
  · intro h
    rw [← Char.ofNat_toNat c, ← Char.ofNat_toNat d, h]

lemma isSepChar_toNat (c : Char) :
    isSepChar c = true ↔ (c.toNat = 45 ∨ c.toNat = 95 ∨ c.toNat = 46) := by
  unfold isSepChar
  simp only [Bool.or_eq_true, decide_eq_true_eq]
  constructor
  · rintro ((h | h) | h) <;> subst h <;> decide
  · rintro (h | h | h)
    · exact Or.inl (Or.inl (char_eq_iff_toNat.2 (by rw [h]; decide)))
    · exact Or.inl (Or.inr (char_eq_iff_toNat.2 (by rw [h]; decide)))
    · exact Or.inr (char_eq_iff_toNat.2 (by rw [h]; decide))

lemma toLower_toNat (c : Char) :
    (Char.toLower c).toNat
      = if 65 ≤ c.toNat ∧ c.toNat ≤ 90 then c.toNat + 32 else c.toNat := by
  unfold Char.toLower
  split
  · next h => rw [if_pos ⟨h.1, h.2⟩, toNat_ofNat_of_small (by omega)]
  · next h => rw [if_neg (fun hc => h ⟨hc.1, hc.2⟩)]

lemma toLower_of_not_upper {c : Char} (h : ¬(65 ≤ c.toNat ∧ c.toNat ≤ 90)) :
    Char.toLower c = c := by
  unfold Char.toLower
  exact if_neg (fun hc => h ⟨hc.1, hc.2⟩)

lemma toLower_idem (c : Char) :
    Char.toLower (Char.toLower c) = Char.toLower c := by
  by_cases h : 65 ≤ c.toNat ∧ c.toNat ≤ 90
  · refine toLower_of_not_upper ?_
    rw [toLower_toNat, if_pos h]
    omega
  · rw [toLower_of_not_upper h, toLower_of_not_upper h]

lemma isSepChar_toLower (c : Char) :
    isSepChar (Char.toLower c) = isSepChar c := by
  by_cases h : 65 ≤ c.toNat ∧ c.toNat ≤ 90
  · have hv : (Char.toLower c).toNat = c.toNat + 32 := by
      rw [toLower_toNat, if_pos h]
    have h1 : isSepChar (Char.toLower c) = false := by
      rw [Bool.eq_false_iff]
      intro hsep
      rcases (isSepChar_toNat _).1 hsep with h' | h' | h' <;> omega
    have h2 : isSepChar c = false := by
      rw [Bool.eq_false_iff]
      intro hsep
      rcases (isSepChar_toNat _).1 hsep with h' | h' | h' <;> omega
    rw [h1, h2]
  · rw [toLower_of_not_upper h]

lemma underscoreDot_toLower (c : Char) :
    (Char.toLower c = '_' ∨ Char.toLower c = '.') ↔ (c = '_' ∨ c = '.') := by
  by_cases h : 65 ≤ c.toNat ∧ c.toNat ≤ 90
  · have hv : (Char.toLower c).toNat = c.toNat + 32 := by
      rw [toLower_toNat, if_pos h]
    have hu : ('_' : Char).toNat = 95 := by decide
    have hd : ('.' : Char).toNat = 46 := by decide
    constructor
    · rintro (h' | h') <;>
        · have := char_eq_iff_toNat.1 h'
          omega
    · rintro (h' | h') <;>
        · have := char_eq_iff_toNat.1 h'
          omega
  · rw [toLower_of_not_upper h]

/-! ### Idempotence machinery: the image of `subSepsRuns` is a fixed point -/

/-- No underscore or dot remains. -/
def onlyDashSep (l : List Char) : Bool := l.all fun c => !(c = '_' || c = '.')

/-- No two adjacent separator characters remain. -/
def noAdjSep : List Char → Bool
  | c :: d :: rest => (!(isSepChar c && isSepChar d)) && noAdjSep (d :: rest)
  | _ => true

lemma subSepsRuns_head_not_sep (l : List Char)
    (hl : ∀ c, l.head? = some c → isSepChar c = false) :
    ∀ d, (subSepsRuns l).head? = some d → isSepChar d = false := by
  cases l with
  | nil => simp
  | cons c rest =>
    have hc := hl c rfl
    intro d hd
    rw [subSepsRuns_cons, if_neg (by simp [hc])] at hd
    simp only [List.head?_cons, Option.some.injEq] at hd
    rw [← hd]
    exact hc

lemma subSepsRuns_good : ∀ l : List Char,
    onlyDashSep (subSepsRuns l) = true ∧ noAdjSep (subSepsRuns l) = true
  | [] => by simp [onlyDashSep, noAdjSep]
  | c :: rest => by
    by_cases h : isSepChar c = true
    · have ih := subSepsRuns_good (rest.dropWhile isSepChar)
      rw [subSepsRuns_cons, if_pos h]
      constructor
      · rw [onlyDashSep, List.all_cons, Bool.and_eq_true]
        exact ⟨by decide, ih.1⟩
      · have hhead : ∀ d, (subSepsRuns (rest.dropWhile isSepChar)).head? = some d →
            isSepChar d = false := by
          refine subSepsRuns_head_not_sep _ ?_
          intro e he
          have := List.head?_dropWhile_not isSepChar rest
          rw [he] at this
          exact this
        cases hout : subSepsRuns (rest.dropWhile isSepChar) with
        | nil => simp [noAdjSep]
        | cons d out =>
          have hd := hhead d (by rw [hout]; rfl)
          have ih2 := ih.2
          rw [hout] at ih2
          simp [noAdjSep, hd, ih2]
    · have ih := subSepsRuns_good rest
      rw [subSepsRuns_cons, if_neg h]
      constructor
      · have hcd : (!(c = '_' || c = '.')) = true := by
          rw [Bool.not_eq_eq_eq_not]
          simp only [Bool.not_true, Bool.or_eq_false_iff, decide_eq_false_iff_not]
          constructor
          · intro he
            exact h (by simp [isSepChar, he])
          · intro he
            exact h (by simp [isSepChar, he])
        rw [onlyDashSep, List.all_cons, Bool.and_eq_true]
        exact ⟨hcd, ih.1⟩
      · cases hout : subSepsRuns rest with
        | nil => simp [noAdjSep]
        | cons d out =>
          have ih2 := ih.2
          rw [hout] at ih2
          simp [noAdjSep, h, ih2]
termination_by l => l.length
decreasing_by
  · exact Nat.lt_succ_of_le (List.Sublist.length_le (List.dropWhile_sublist _))
  · exact Nat.lt_succ_of_le (Nat.le_refl _)

lemma noAdjSep_tail {c : Char} {rest : List Char}
    (h : noAdjSep (c :: rest) = true) : noAdjSep rest = true := by
  cases rest with
  | nil => simp [noAdjSep]
  | cons d out =>
    rw [noAdjSep, Bool.and_eq_true] at h
    exact h.2

lemma subSepsRuns_of_good : ∀ l : List Char,
    onlyDashSep l = true → noAdjSep l = true → subSepsRuns l = l
  | [] , _, _ => by simp
  | c :: rest, h1, h2 => by
    have hrest1 : onlyDashSep rest = true := by
      rw [onlyDashSep, List.all_cons, Bool.and_eq_true] at h1
      exact h1.2
    have hrest2 : noAdjSep rest = true := noAdjSep_tail h2
    by_cases hc : isSepChar c = true
    · have hdash : c = '-' := by
        have hc3 : (c = '-' ∨ c = '_') ∨ c = '.' := by
          simpa [isSepChar] using hc
        rcases hc3 with (h | h) | h
        · exact h
        · exfalso
          rw [onlyDashSep, List.all_cons, Bool.and_eq_true] at h1
          simp [h] at h1
        · exfalso
          rw [onlyDashSep, List.all_cons, Bool.and_eq_true] at h1
          simp [h] at h1
      have hdrop : rest.dropWhile isSepChar = rest := by
        cases rest with
        | nil => rfl
        | cons d out =>
          have : isSepChar d = false := by
            rw [noAdjSep, Bool.and_eq_true] at h2
            have := h2.1
            rw [Bool.not_eq_eq_eq_not, Bool.not_true, Bool.and_eq_false_iff] at this
            rcases this with h | h
            · rw [hc] at h; exact absurd h (by simp)
            · exact h
          exact List.dropWhile_cons_of_neg (by simp [this])
      rw [subSepsRuns_cons, if_pos hc, hdrop, hdash,
        subSepsRuns_of_good rest hrest1 hrest2]
    · rw [subSepsRuns_cons, if_neg hc, subSepsRuns_of_good rest hrest1 hrest2]

lemma onlyDashSep_map_toLower {l : List Char} (h : onlyDashSep l = true) :
    onlyDashSep (l.map Char.toLower) = true := by
  rw [onlyDashSep, List.all_map]
  rw [onlyDashSep] at h
  refine List.all_eq_true.2 ?_
  intro c hc
  have hcl := List.all_eq_true.1 h c hc
  simp only [Function.comp_apply]
  simp only [Bool.not_eq_eq_eq_not, Bool.not_true, Bool.or_eq_false_iff,
    decide_eq_false_iff_not] at hcl ⊢
  constructor
  · intro hu
    rcases (underscoreDot_toLower c).1 (Or.inl hu) with h' | h'
    · exact hcl.1 h'
    · exact hcl.2 h'
  · intro hu
    rcases (underscoreDot_toLower c).1 (Or.inr hu) with h' | h'
    · exact hcl.1 h'
    · exact hcl.2 h'

lemma noAdjSep_map_toLower : ∀ {l : List Char}, noAdjSep l = true →
    noAdjSep (l.map Char.toLower) = true
  | [], _ => by simp [noAdjSep]
  | [c], _ => by simp [noAdjSep]
  | c :: d :: rest, h => by
    rw [noAdjSep, Bool.and_eq_true] at h
    have ih : noAdjSep ((d :: rest).map Char.toLower) = true :=
      noAdjSep_map_toLower h.2
    simp only [List.map_cons] at ih ⊢
    rw [noAdjSep, Bool.and_eq_true]
    refine ⟨?_, ih⟩
    rw [isSepChar_toLower, isSepChar_toLower]
    exact h.1

/-- Claim C6: `canonicalize_package_name` is a total function on strings that
collapses every maximal run of the characters dash, underscore, dot into a
single dash and then lowercases the result (stated as agreement with the
independently-written specification formulation `canonicalizeSpec`); in
particular it maps `"Foo_Bar.Baz"` to `"foo-bar-baz"` and `"foo--bar"` to
`"foo-bar"`. -/
theorem claim_C6_canonicalize :
    (∀ s : String, canonicalize_package_name s = canonicalizeSpec s)
      ∧ canonicalize_package_name "Foo_Bar.Baz" = "foo-bar-baz"
      ∧ canonicalize_package_name "foo--bar" = "foo-bar" :=
  ⟨canonicalize_eq_spec, by decide, by decide⟩

/-- Claim C10: `canonicalize_package_name` is idempotent, so canonical package
names stored in the manifest are unchanged when re-canonicalized during index
rendering. -/
theorem claim_C10_canonicalize_idem (s : String) :
    canonicalize_package_name (canonicalize_package_name s)
      = canonicalize_package_name s := by
  have e : ∀ l : List Char, subSeps false l = subSepsRuns l := by
    intro l
    rw [subSeps_eq_runs]
    simp
  unfold canonicalize_package_name
  have hdata : (String.mk ((subSeps false s.data).map Char.toLower)).data
      = (subSeps false s.data).map Char.toLower := rfl
  rw [hdata, e, e]
  have good := subSepsRuns_good s.data
  have g1 : onlyDashSep ((subSepsRuns s.data).map Char.toLower) = true :=
    onlyDashSep_map_toLower good.1
  have g2 : noAdjSep ((subSepsRuns s.data).map Char.toLower) = true :=
    noAdjSep_map_toLower good.2
  rw [subSepsRuns_of_good _ g1 g2, List.map_map]
  rw [show Char.toLower ∘ Char.toLower = Char.toLower from funext toLower_idem]

/-! ## Error taxonomy

One constructor per failure class of the two scripts (each is a `SystemExit`
or an uncaught exception in the Python source; the names follow the
specification's taxonomy).  `pythonError` stands for an uncaught runtime
exception such as `AttributeError`, `TypeError` or `KeyError` raised while
handling loosely-typed JSON data. -/

inductive Err where
  | invalidArtifactName (filename : String)
  | missingArtifact (paths : List String)
  | repoConflict (manifestRepo cliRepo : String)
  | repoUnresolved
  | duplicateArtifact (filename tag : String)
  | manifestCorrupt
  | pythonError
deriving DecidableEq

/-! ## Artifact Inspector: `WHEEL_NAME_RE` and `collect_wheels`

`WHEEL_NAME_RE` is
`^(?P<name>.+?)-(?P<version>[^-]+)(?:-(?P<build>\d[^-]*))?-(?P<py>[^-]+)-(?P<abi>[^-]+)-(?P<plat>[^-]+)\.whl$`.
Since `version`, `build`, `py`, `abi` and `plat` cannot contain a dash, a
match decomposes the text before the `.whl` suffix into dash-separated
segments: the lazy `name` group takes the shortest nonempty newline-free
prefix of segments such that the remainder is either exactly four nonempty
segments (no build tag) or exactly five with the second starting with a
digit (build tag present).  `$` also tolerates one trailing newline.  The
digit class is modelled on ASCII digits. -/

/-- Split a character list at dashes, keeping empty segments. -/
def splitDash : List Char → List (List Char)
  | [] => [[]]
  | c :: rest =>
    match splitDash rest with
    | [] => [[]]
    | s :: ss => if c = '-' then [] :: s :: ss else (c :: s) :: ss

/-- Join segments back with dashes (inverse of `splitDash`). -/
def joinDash : List (List Char) → List Char
  | [] => []
  | [s] => s
  | s :: ss => s ++ '-' :: joinDash ss

/-- Match `-version(-build)?-py-abi-plat` against the segments after the
`name` group; returns the `version` group on success. -/
def wheelTail : List (List Char) → Option (List Char)
  | [v, p, a, l] =>
    if v ≠ [] ∧ p ≠ [] ∧ a ≠ [] ∧ l ≠ [] then some v else none
  | [v, b, p, a, l] =>
    match b with
    | d :: _ =>
      if v ≠ [] ∧ d.isDigit ∧ p ≠ [] ∧ a ≠ [] ∧ l ≠ [] then some v else none
    | [] => none
  | _ => none

/-- Backtracking search for the lazy `name` group: try the shortest segment
prefix first; a candidate name must be nonempty and newline-free (`.` does
not match a newline). -/
def wheelSearch : List (List Char) → List (List Char) → Option (List Char × List Char)
  | _, [] => none
  | nameSegs, seg :: rest =>
    let nameSegs2 := nameSegs ++ [seg]
    let name := joinDash nameSegs2
    match wheelTail rest with
    | some v =>
      if name ≠ [] ∧ name.all (fun c => c ≠ '\n') then some (name, v)
      else wheelSearch nameSegs2 rest
    | none => wheelSearch nameSegs2 rest

/-- Model of `WHEEL_NAME_RE.match(filename)`, returning the raw `name` and
`version` groups on success. -/
def parseWheelName (s : String) : Option (String × String) :=
  let cs : List Char :=
    match s.data.reverse with
    | '\n' :: r => r.reverse
    | _ => s.data
  match cs.reverse with
  | 'l' :: 'h' :: 'w' :: '.' :: bodyRev =>
    match wheelSearch [] (splitDash bodyRev.reverse) with
    | some (name, v) => some (String.mk name, String.mk v)
    | none => none
  | _ => none

/-- A wheel record as appended to the manifest by `collect_wheels`. -/
structure WheelRecord where
  filename : String
  package : String
  version : String
  size_bytes : Nat
  sha256 : String
  release_tag : String
deriving DecidableEq

/-- An artifact path passed to `main`.  The file-system facts the script
queries about it (existence via `path.exists()`, size via
`path.stat().st_size`, digest via `sha256_file`) are inputs of the model. -/
structure PathInput where
  name : String
  present : Bool
  size : Nat
  sha : String
deriving DecidableEq

/-- Model of `collect_wheels(paths, tag)`: parse every filename, aborting
with `InvalidArtifactName` (`SystemExit` in the source) at the first filename
the wheel pattern does not match. -/
def collect_wheels : List PathInput → String → Except Err (List WheelRecord)
  | [], _ => .ok []
  | p :: rest, tag =>
    match parseWheelName p.name with
    | none => .error (.invalidArtifactName p.name)
    | some (name, version) =>
      match collect_wheels rest tag with
      | .error e => .error e
      | .ok rs =>
        .ok ({ filename := p.name,
               package := canonicalize_package_name name,
               version := version,
               size_bytes := p.size,
               sha256 := p.sha,
               release_tag := tag } :: rs)

lemma collect_wheels_error_of_bad (tag : String) :
    ∀ (paths : List PathInput), (∃ p ∈ paths, parseWheelName p.name = none) →
      ∃ f, collect_wheels paths tag = .error (.invalidArtifactName f)
        ∧ parseWheelName f = none := by
  intro paths
  induction paths with
  | nil => rintro ⟨p, hp, _⟩; cases hp
  | cons q rest ih =>
    rintro ⟨p, hp, hbad⟩
    by_cases hq : parseWheelName q.name = none
    · refine ⟨q.name, ?_, hq⟩
      rw [collect_wheels, hq]
    · rcases List.mem_cons.1 hp with rfl | hmem
      · exact absurd hbad hq
      · rcases ih ⟨p, hmem, hbad⟩ with ⟨f, hf, hfbad⟩
        rcases ho : parseWheelName q.name with _ | nv
        · exact absurd ho hq
        · refine ⟨f, ?_, hfbad⟩
          rw [collect_wheels, ho, hf]

/-- Claim C5: parsing `"demo_pkg-1.2.3-py3-none-any.whl"` yields the
canonicalized package `"demo-pkg"` and the verbatim version `"1.2.3"`, and
any batch containing a filename the wheel pattern does not match makes
`collect_wheels` fail with `InvalidArtifactName`, producing no records. -/
theorem claim_C5_wheel_parsing :
    (∀ (sz : Nat) (sha tag : String),
      collect_wheels [⟨"demo_pkg-1.2.3-py3-none-any.whl", true, sz, sha⟩] tag
        = .ok [⟨"demo_pkg-1.2.3-py3-none-any.whl", "demo-pkg", "1.2.3", sz, sha, tag⟩])
    ∧ (∀ (paths : List PathInput) (tag : String),
        (∃ p ∈ paths, parseWheelName p.name = none) →
        ∃ f, collect_wheels paths tag = .error (.invalidArtifactName f)
          ∧ parseWheelName f = none) := by
  constructor
  · intro sz sha tag
    rfl
  · intro paths tag h
    exact collect_wheels_error_of_bad tag paths h

/-- Claim C5 witness: the second conjunct applied to a concrete batch whose
single filename does not match the wheel pattern. -/
theorem claim_C5_wheel_parsing_witness :
    ∃ f, collect_wheels [⟨"bad.txt", true, 0, "d"⟩] "v1"
        = .error (.invalidArtifactName f) ∧ parseWheelName f = none :=
  claim_C5_wheel_parsing.2 [⟨"bad.txt", true, 0, "d"⟩] "v1"
    ⟨⟨"bad.txt", true, 0, "d"⟩, by decide, by decide⟩

/-! ## JSON values

The Python scripts pass around objects produced by `json.loads` and consumed
by `json.dumps`.  We model them with an inductive type; object fields keep
the dictionary's insertion order.  The only numbers this pipeline produces
are integers (`size_bytes`), so numbers are modelled as `Int`. -/

inductive Json where
  | null
  | bool (b : Bool)
  | num (n : Int)
  | str (s : String)
  | arr (items : List Json)
  | obj (fields : List (String × Json))

/-- Dictionary lookup (`d.get(k)` / `d[k]`) on the field list. -/
def Json.lookup (fields : List (String × Json)) (k : String) : Option Json :=
  List.lookup k fields

/-! ### Python scalar conversions used by the scripts -/

/-- Decimal digits of a natural number (own definition so that everything
reduces in the kernel); the first argument is fuel. -/
def natToCharsAux : Nat → Nat → List Char
  | 0, _ => []
  | fuel + 1, n =>
    if n < 10 then [Nat.digitChar n]
    else natToCharsAux fuel (n / 10) ++ [Nat.digitChar (n % 10)]

def natToString (n : Nat) : String := String.mk (natToCharsAux (n + 1) n)

/-- Python `str` of an integer. -/
def intToString (n : Int) : String :=
  if n < 0 then "-" ++ natToString n.natAbs else natToString n.toNat

/-- Whitespace stripped by `str.strip()` (ASCII fragment). -/
def isPySpace (c : Char) : Bool :=
  c = ' ' || c = '\t' || c = '\n' || c = '\r' || c = '\x0b' || c = '\x0c'

/-- Python `str.strip()`. -/
def pyStrip (s : String) : String :=
  String.mk (((s.data.dropWhile isPySpace).reverse.dropWhile isPySpace).reverse)

/-- Python `repr` of a string: quote choice and ASCII escapes as in CPython
(the repertoire of printable non-ASCII characters is approximated by keeping
them verbatim). -/
def pyReprStr (s : String) : String :=
  let quote : Char := if s.data.contains '\x27' && !s.data.contains '"' then '"' else '\x27'
  let escapeChar : Char → List Char := fun c =>
    if c = '\\' then ['\\', '\\']
    else if c = quote then ['\\', quote]
    else if c = '\n' then ['\\', 'n']
    else if c = '\r' then ['\\', 'r']
    else if c = '\t' then ['\\', 't']
    else if c.toNat < 32 || c.toNat = 127 then
      '\\' :: 'x' :: [Nat.digitChar (c.toNat / 16), Nat.digitChar (c.toNat % 16)]
    else [c]
  String.mk (quote :: (s.data.map escapeChar).flatten ++ [quote])

mutual

/-- Python `repr` of a JSON-shaped value. -/
def pyRepr : Json → String
  | .null => "None"
  | .bool b => if b then "True" else "False"
  | .num n => intToString n
  | .str s => pyReprStr s
  | .arr items => "[" ++ pyReprList items ++ "]"
  | .obj fields => "\x7b" ++ pyReprFields fields ++ "\x7d"

def pyReprList : List Json → String
  | [] => ""
  | [j] => pyRepr j
  | j :: rest => pyRepr j ++ ", " ++ pyReprList rest

def pyReprFields : List (String × Json) → String
  | [] => ""
  | [(k, v)] => pyReprStr k ++ ": " ++ pyRepr v
  | (k, v) :: rest => pyReprStr k ++ ": " ++ pyRepr v ++ ", " ++ pyReprFields rest

end

/-- Python `str` of a JSON-shaped value (`str` differs from `repr` only on
strings). -/
def pyStr : Json → String
  | .str s => s
  | j => pyRepr j

/-- Digit-sequence parser for Python `int(string)`: digits with single
underscores allowed between digits. -/
def pyIntDigits : List Char → Option Nat → Option Nat
  | [], acc => acc
  | c :: rest, acc =>
    if c.isDigit then
      match acc with
      | none => pyIntDigits rest (some (c.toNat - 48))
      | some n => pyIntDigits rest (some (n * 10 + (c.toNat - 48)))
    else if c = '_' then
      match acc, rest with
      | some n, d :: _ => if d.isDigit then pyIntDigits rest (some n) else none
      | _, _ => none
    else none

/-- Python `int(x)` on a JSON-shaped value: exact on integers, booleans
count as 0 or 1, strings are parsed (ASCII digits, optional sign,
surrounding whitespace), everything else raises. -/
def pyInt : Json → Option Int
  | .num n => some n
  | .bool b => some (if b then 1 else 0)
  | .str s =>
    let t := (pyStrip s).data
    match t with
    | '-' :: rest => (pyIntDigits rest none).map (fun n => -(n : Int))
    | '+' :: rest => (pyIntDigits rest none).map (fun n => (n : Int))
    | l => (pyIntDigits l none).map (fun n => (n : Int))
  | _ => none

/-! ### Lexicographic string comparison (Python compares by code point) -/

def charListLt : List Char → List Char → Bool
  | [], [] => false
  | [], _y :: _ys => true
  | _x :: _xs, [] => false
  | a :: as, b :: bs =>
    if a.toNat < b.toNat then true
    else if b.toNat < a.toNat then false
    else charListLt as bs

def pyStrLt (a b : String) : Bool := charListLt a.data b.data

def pyStrLe (a b : String) : Bool := !(pyStrLt b a)

/-- Python tuple comparison `(p1, v1, f1) <= (p2, v2, f2)` on string triples. -/
def tripleLe (x y : String × String × String) : Bool :=
  pyStrLt x.1 y.1
    || (x.1 = y.1 && (pyStrLt x.2.1 y.2.1
        || (x.2.1 = y.2.1 && pyStrLe x.2.2 y.2.2)))

/-! ## Manifest file state

The scripts read the manifest with `path.exists()` + `json.loads(text)`.
We model the observable state of the file at that interface: the file can be
absent, hold text `json.loads` rejects, or hold text parsing to a value. -/

inductive FileState where
  | absent
  | invalidJson
  | json (j : Json)

/-! ## `generate_index.py`: `load_manifest`, `bytes_to_human`, `render_index` -/

def REPO_URL_PREFIX : String := "https://github.com"

/-- A wheel entry as produced by `generate_index.load_manifest`
(`size_bytes` passes through Python `int`, hence may be negative). -/
structure WheelEntry where
  filename : String
  package : String
  version : String
  size_bytes : Int
  sha256 : String
  url : String
deriving DecidableEq

/-- One iteration of the wheel loop in `generate_index.load_manifest`:
coerce the six fields with defaults, then either keep the entry, silently
skip it (some required string is empty), or raise (`item` is not a dict, or
`int()` fails). -/
def loadWheelItem (repo : String) : Json → Except Err (Option WheelEntry)
  | .obj f =>
    let filename := pyStrip (pyStr ((Json.lookup f "filename").getD (.str "")))
    let release_tag := pyStrip (pyStr ((Json.lookup f "release_tag").getD (.str "")))
    let package := canonicalize_package_name
      (pyStrip (pyStr ((Json.lookup f "package").getD (.str ""))))
    let version := pyStrip (pyStr ((Json.lookup f "version").getD (.str "")))
    match pyInt ((Json.lookup f "size_bytes").getD (.num 0)) with
    | none => .error .pythonError
    | some size_bytes =>
      let sha256 := pyStrip (pyStr ((Json.lookup f "sha256").getD (.str "")))
      let url :=
        if repo ≠ "" then
          REPO_URL_PREFIX ++ "/" ++ repo ++ "/releases/download/"
            ++ release_tag ++ "/" ++ filename
        else ""
      if filename ≠ "" ∧ package ≠ "" ∧ version ≠ "" ∧ sha256 ≠ "" ∧ release_tag ≠ ""
      then .ok (some ⟨filename, package, version, size_bytes, sha256, url⟩)
      else .ok none
  | _ => .error .pythonError

def loadItems (repo : String) : List Json → Except Err (List WheelEntry)
  | [] => .ok []
  | item :: rest =>
    match loadWheelItem repo item with
    | .error e => .error e
    | .ok none => loadItems repo rest
    | .ok (some entry) => (loadItems repo rest).map (entry :: ·)

def entryKey (e : WheelEntry) : String × String × String :=
  (e.package, e.version, e.filename)

/-- The stable sort `wheel_entries.sort(key=(package, version, filename))`. -/
def sortEntries (entries : List WheelEntry) : List WheelEntry :=
  List.insertionSort (fun a b => tripleLe (entryKey a) (entryKey b) = true) entries

/-- Model of `generate_index.load_manifest`: empty result for a missing
file, `ManifestCorrupt` for unparseable text, otherwise loosely-typed
coercion of the parsed value (iterating a non-list `wheels` value raises
unless it is an empty string or empty dict, whose iteration yields nothing). -/
def load_manifest_gi (fs : FileState) : Except Err (String × List WheelEntry) :=
  match fs with
  | .absent => .ok ("", [])
  | .invalidJson => .error .manifestCorrupt
  | .json m =>
    match m with
    | .obj fields =>
      let repo := pyStrip (pyStr ((Json.lookup fields "repo").getD (.str "")))
      match (Json.lookup fields "wheels").getD (.arr []) with
      | .arr items => (loadItems repo items).map (fun entries => (repo, sortEntries entries))
      | .str s => (match s.data with | [] => .ok (repo, []) | _ => .error .pythonError)
      | .obj f2 => (match f2 with | [] => .ok (repo, []) | _ => .error .pythonError)
      | _ => .error .pythonError
    | _ => .error .pythonError

/-- Model of `bytes_to_human`: the float arithmetic `size /= 1024` and the
comparisons and `.1f` rounding on it are modelled by exact rational
arithmetic on `value / den`. -/
def roundTenthsHalfEven (n d : Int) : Int :=
  let q := n.ediv d
  let r := n.emod d
  if 2 * r < d then q
  else if d < 2 * r then q + 1
  else if q % 2 = 0 then q else q + 1

def fmtTenths (t : Int) : String :=
  (if t < 0 then "-" else "") ++ natToString (t.natAbs / 10) ++ "." ++ natToString (t.natAbs % 10)

def b2hAux (value : Int) (den : Int) : List String → String
  | [] => intToString value ++ " B"
  | s :: rest =>
    if value < 1024 * den ∨ s = "TB" then
      if s = "B" then intToString (Int.tdiv value den) ++ " " ++ s
      else fmtTenths (roundTenthsHalfEven (10 * value) den) ++ " " ++ s
    else b2hAux value (1024 * den) rest

def bytes_to_human (value : Int) : String :=
  b2hAux value 1 ["B", "KB", "MB", "GB", "TB"]

/-- Model of `html.escape` with `quote=True` (its default). -/
def htmlEscape (s : String) : String :=
  String.mk ((s.data.map (fun c =>
    if c = '&' then "&amp;".data
    else if c = '<' then "&lt;".data
    else if c = '>' then "&gt;".data
    else if c = '"' then "&quot;".data
    else if c = '\x27' then "&#x27;".data
    else [c])).flatten)

/-- First-occurrence deduplication (the keys of the `defaultdict` in
`render_index`, in insertion order). -/
def dedupAux (seen : List String) : List String → List String
  | [] => []
  | x :: xs => if x ∈ seen then dedupAux seen xs else x :: dedupAux (x :: seen) xs

/-- The package sections of `render_index`: `sorted(grouped)` with each
package paired with its wheels in manifest order (`grouped[package]` is
filled by appending while iterating `wheels`). -/
def sectionsFor (wheels : List WheelEntry) : List (String × List WheelEntry) :=
  (List.insertionSort (fun a b => pyStrLe a b = true)
      (dedupAux [] (wheels.map (fun w => w.package)))).map
    (fun p => (p, wheels.filter (fun w => w.package == p)))

def renderHeaderLines : List String :=
  [ "<!doctype html>",
    "<html lang=\"en\">",
    "<head>",
    "  <meta charset=\"utf-8\">",
    "  <meta name=\"viewport\" content=\"width=device-width, initial-scale=1\">",
    "  <title>whl.knaebel.dev</title>",
    "  <style>",
    "    body \x7b font-family: ui-monospace, SFMono-Regular, Menlo, Monaco, Consolas, monospace; max-width: 920px; margin: 2rem auto; padding: 0 1rem; line-height: 1.4; \x7d",
    "    h1 \x7b margin-bottom: 0.25rem; \x7d",
    "    .meta \x7b color: #5f6368; font-size: 0.95rem; margin-bottom: 1.5rem; \x7d",
    "    h2 \x7b margin-top: 2rem; margin-bottom: 0.25rem; \x7d",
    "    ul \x7b padding-left: 1.25rem; \x7d",
    "    li \x7b margin: 0.5rem 0; \x7d",
    "    .details \x7b color: #5f6368; font-size: 0.9rem; \x7d",
    "  </style>",
    "</head>",
    "<body>",
    "  <h1>Python Wheels</h1>",
    "  <p class=\"meta\">Use with <code>pip install --no-index --find-links https://whl.knaebel.dev/ PACKAGE==VERSION</code></p>" ]

def renderSectionLines (sec : String × List WheelEntry) : List String :=
  ("  <h2 id=\"" ++ htmlEscape sec.1 ++ "\">" ++ htmlEscape sec.1 ++ "</h2>")
    :: "  <ul>"
    :: ((sec.2.map (fun wheel =>
          "    <li><a href=\"" ++ htmlEscape wheel.url ++ "#sha256="
            ++ htmlEscape wheel.sha256 ++ "\">" ++ htmlEscape wheel.filename
            ++ "</a> <span class=\"details\">version " ++ htmlEscape wheel.version
            ++ ", " ++ htmlEscape (bytes_to_human wheel.size_bytes)
            ++ "</span></li>"))
        ++ ["  </ul>"])

/-- The `lines` list built by `render_index`. -/
def renderLines (wheels : List WheelEntry) : List String :=
  renderHeaderLines
    ++ (if wheels.isEmpty then ["  <p>No wheels published yet.</p>"]
        else (sectionsFor wheels).flatMap renderSectionLines)
    ++ ["</body>", "</html>", ""]

def joinLines : List String → String
  | [] => ""
  | [l] => l
  | l :: rest => l ++ "\n" ++ joinLines rest

/-- Model of `render_index`: `"\n".join(lines)`. -/
def render_index (wheels : List WheelEntry) : String :=
  joinLines (renderLines wheels)

/-! ### Order facts about the code-point comparison -/

lemma charListLt_irrefl : ∀ l, charListLt l l = false
  | [] => rfl
  | c :: rest => by
    simp [charListLt, charListLt_irrefl rest]

lemma charListLt_asymm : ∀ a b : List Char,
    charListLt a b = true → charListLt b a = false
  | [], [] => by simp [charListLt]
  | [], _ :: _ => by simp [charListLt]
  | _ :: _, [] => by simp [charListLt]
  | a :: as, b :: bs => by
    intro h
    simp only [charListLt] at h ⊢
    by_cases h1 : a.toNat < b.toNat
    · rw [if_neg (by omega : ¬ b.toNat < a.toNat), if_pos h1]
    · rw [if_neg h1] at h
      by_cases h2 : b.toNat < a.toNat
      · rw [if_pos h2] at h
        simp at h
      · rw [if_neg h2] at h
        rw [if_neg h2, if_neg h1]
        exact charListLt_asymm as bs h

lemma charListLt_trans : ∀ a b c : List Char,
    charListLt a b = true → charListLt b c = true → charListLt a c = true
  | _, [], [] => by
    intro _ h2
    simp [charListLt] at h2
  | _, _ :: _, [] => by
    intro _ h2
    simp [charListLt] at h2
  | [], [], _ :: _ => by
    intro h1 _
    simp [charListLt] at h1
  | _ :: _, [], _ :: _ => by
    intro h1 _
    simp [charListLt] at h1
  | [], _ :: _, _ :: _ => by
    intro _ _
    simp [charListLt]
  | a :: as, b :: bs, c :: cs => by
    intro hab hbc
    simp only [charListLt] at hab hbc ⊢
    by_cases h1 : a.toNat < b.toNat
    · by_cases h2 : b.toNat < c.toNat
      · rw [if_pos (by omega : a.toNat < c.toNat)]
      · rw [if_neg h2] at hbc
        by_cases h3 : c.toNat < b.toNat
        · rw [if_pos h3] at hbc
          simp at hbc
        · rw [if_pos (by omega : a.toNat < c.toNat)]
    · rw [if_neg h1] at hab
      by_cases h1b : b.toNat < a.toNat
      · rw [if_pos h1b] at hab
        simp at hab
      · rw [if_neg h1b] at hab
        by_cases h2 : b.toNat < c.toNat
        · rw [if_pos (by omega : a.toNat < c.toNat)]
        · rw [if_neg h2] at hbc
          by_cases h3 : c.toNat < b.toNat
          · rw [if_pos h3] at hbc
            simp at hbc
          · rw [if_neg h3] at hbc
            rw [if_neg (by omega : ¬ a.toNat < c.toNat),
              if_neg (by omega : ¬ c.toNat < a.toNat)]
            exact charListLt_trans as bs cs hab hbc

lemma charListLt_connex : ∀ a b : List Char,
    charListLt a b = false → charListLt b a = false → a = b
  | [], [] => by simp
  | [], _ :: _ => by simp [charListLt]
  | _ :: _, [] => by simp [charListLt]
  | a :: as, b :: bs => by
    intro h1 h2
    simp only [charListLt] at h1 h2
    have e1 : ¬ a.toNat < b.toNat := by
      intro h
      simp [h] at h1
    have e2 : ¬ b.toNat < a.toNat := by
      intro h
      simp [h] at h2
    have heq : a = b := char_eq_iff_toNat.2 (by omega)
    rw [if_neg e1, if_neg e2] at h1
    rw [if_neg e2, if_neg e1] at h2
    rw [heq, charListLt_connex as bs h1 h2]

lemma pyStrLt_or_eq_of_not_lt {a b : String} (h : pyStrLt a b = false) :
    pyStrLt b a = true ∨ a = b := by
  rcases hb : pyStrLt b a with _ | _
  · right
    have hd := charListLt_connex a.data b.data h hb
    rcases a with ⟨da⟩
    rcases b with ⟨db⟩
    exact congrArg String.mk hd
  · left
    rfl

instance : IsTotal String (fun a b => pyStrLe a b = true) := by
  constructor
  intro a b
  unfold pyStrLe
  rcases h : pyStrLt b a with _ | _
  · left
    simp
  · right
    simp [pyStrLt] at h ⊢
    rw [charListLt_asymm _ _ h]

lemma charListLt_or_eq_of_not_lt {a b : List Char} (h : charListLt a b = false) :
    charListLt b a = true ∨ a = b := by
  rcases hb : charListLt b a with _ | _
  · exact Or.inr (charListLt_connex a b h hb)
  · exact Or.inl rfl

instance : IsTrans String (fun a b => pyStrLe a b = true) := by
  constructor
  intro a b c hab hbc
  simp only [pyStrLe, pyStrLt, Bool.not_eq_true'] at hab hbc ⊢
  rcases hca : charListLt c.data a.data with _ | _
  · rfl
  · exfalso
    rcases charListLt_or_eq_of_not_lt hab with hba | hba
    · rcases charListLt_or_eq_of_not_lt hbc with hcb | hcb
      · have hac : charListLt a.data c.data = true :=
          charListLt_trans a.data b.data c.data hba hcb
        have hfalse := charListLt_asymm a.data c.data hac
        rw [hca] at hfalse
        cases hfalse
      · rw [hcb] at hca
        rw [hca] at hab
        cases hab
    · rw [hba] at hbc
      rw [hca] at hbc
      cases hbc

/-! ### Structure of `render_index` sections (claim C7) -/

lemma dedupAux_nodup : ∀ (l seen : List String),
    (dedupAux seen l).Nodup ∧ ∀ x ∈ dedupAux seen l, x ∉ seen
  | [], _ => by simp [dedupAux]
  | x :: xs, seen => by
    by_cases hx : x ∈ seen
    · have ih := dedupAux_nodup xs seen
      simp only [dedupAux, if_pos hx]
      exact ih
    · have ih := dedupAux_nodup xs (x :: seen)
      simp only [dedupAux, if_neg hx]
      constructor
      · refine List.nodup_cons.2 ⟨?_, ih.1⟩
        intro hmem
        exact ih.2 x hmem (List.mem_cons_self x seen)
      · intro y hy hyseen
        rcases List.mem_cons.1 hy with rfl | hy2
        · exact hx hyseen
        · exact ih.2 y hy2 (List.mem_cons_of_mem x hyseen)

lemma sections_pairwise_lt (wheels : List WheelEntry) :
    List.Pairwise (fun a b => pyStrLt a.1 b.1 = true) (sectionsFor wheels) := by
  unfold sectionsFor
  rw [List.pairwise_map]
  have hsorted : List.Pairwise (fun a b => pyStrLe a b = true)
      (List.insertionSort (fun a b => pyStrLe a b = true)
        (dedupAux [] (wheels.map (fun w => w.package)))) :=
    List.sorted_insertionSort _ _
  have hnodup : (List.insertionSort (fun a b => pyStrLe a b = true)
      (dedupAux [] (wheels.map (fun w => w.package)))).Nodup :=
    (List.perm_insertionSort _ _).symm.nodup
      (dedupAux_nodup (wheels.map (fun w => w.package)) []).1
  have hcomb := hsorted.and hnodup
  refine hcomb.imp ?_
  intro a b hab
  rcases pyStrLt_or_eq_of_not_lt (by simpa [pyStrLe] using hab.1) with h | h
  · exact h
  · exact absurd h.symm hab.2

lemma sections_entries (wheels : List WheelEntry) :
    ∀ p entries, (p, entries) ∈ sectionsFor wheels →
      entries = wheels.filter (fun w => w.package == p) := by
  intro p entries hmem
  unfold sectionsFor at hmem
  rcases List.mem_map.1 hmem with ⟨q, _, hq⟩
  cases hq
  rfl

/-- Index of the first occurrence of a line. -/
def findLineIdx (target : String) : List String → Option Nat
  | [] => none
  | l :: rest =>
    if l = target then some 0 else (findLineIdx target rest).map (· + 1)

/-- Recognizer for a package-section heading line. -/
def isSectionLine (l : String) : Bool :=
  match l.data with
  | ' ' :: ' ' :: '<' :: 'h' :: '2' :: _ => true
  | _ => false

def zetaWheel : WheelEntry :=
  ⟨"zeta-1.0-py3-none-any.whl", "zeta", "1.0", 10, "aa", "https://example/z"⟩

def alphaWheel : WheelEntry :=
  ⟨"alpha-1.0-py3-none-any.whl", "alpha", "1.0", 20, "bb", "https://example/a"⟩

/-- A manifest-order wheel list whose packages are `zeta` then `alpha`. -/
def exampleWheels : List WheelEntry := [zetaWheel, alphaWheel]

/-- Claim C7: `render_index` groups wheels by package and emits sections in
strictly increasing lexicographic package order, keeping manifest order
inside each section; for the zeta/alpha example the `alpha` heading comes
before the `zeta` heading (line 19 against line 23); an empty wheel list
yields the placeholder line and no section headings. -/
theorem claim_C7_render :
    (∀ wheels : List WheelEntry,
        List.Pairwise (fun a b => pyStrLt a.1 b.1 = true) (sectionsFor wheels)
      ∧ ∀ p entries, (p, entries) ∈ sectionsFor wheels →
          entries = wheels.filter (fun w => w.package == p))
    ∧ (findLineIdx "  <h2 id=\"alpha\">alpha</h2>" (renderLines exampleWheels) = some 19
      ∧ findLineIdx "  <h2 id=\"zeta\">zeta</h2>" (renderLines exampleWheels) = some 23)
    ∧ (("  <p>No wheels published yet.</p>") ∈ renderLines []
      ∧ (renderLines []).all (fun l => !isSectionLine l) = true) := by
  refine ⟨fun wheels => ⟨sections_pairwise_lt wheels, sections_entries wheels⟩, ?_, ?_⟩
  · exact ⟨by decide, by decide⟩
  · exact ⟨by decide, by decide⟩

/-- Claim C7 witness: the section-content conjunct applied to the concrete
example (`alpha` section holds exactly the `alpha` wheels, in manifest
order). -/
theorem claim_C7_render_witness :
    ([alphaWheel] : List WheelEntry)
      = exampleWheels.filter (fun w => w.package == "alpha") :=
  (claim_C7_render.1 exampleWheels).2 "alpha" [alphaWheel] (by decide)

/-! ## `load_manifest` in `publish_release.py` (no structure validation) -/

/-- Model of `publish_release.load_manifest`: the default document for a
missing file, `json.loads` otherwise, with no validation of the result. -/
def load_manifest_pub (fs : FileState) : Except Err Json :=
  match fs with
  | .absent => .ok (.obj [("repo", .str ""), ("wheels", .arr [])])
  | .invalidJson => .error .manifestCorrupt
  | .json j => .ok j

/-- A parsed manifest whose single wheel entry has no fields at all. -/
def emptyEntryManifest : Json :=
  .obj [("repo", .str "o/r"), ("wheels", .arr [.obj []])]

/-- Claim C8 counterexample: a well-formed JSON document whose wheel entry
misses every required field is not rejected with `ManifestCorrupt`;
`generate_index.load_manifest` silently drops the entry and returns partial
data, and `publish_release.load_manifest` returns even a bare JSON array
untouched. -/
theorem claim_C8_counterexample :
    load_manifest_gi (.json emptyEntryManifest) = .ok ("o/r", [])
    ∧ load_manifest_gi (.json emptyEntryManifest) ≠ .error .manifestCorrupt
    ∧ load_manifest_pub (.json (.arr [])) = .ok (.arr []) := by
  have h1 : load_manifest_gi (.json emptyEntryManifest) = .ok ("o/r", []) := rfl
  refine ⟨h1, ?_, rfl⟩
  rw [h1]
  intro h
  exact Except.noConfusion h

/-- Claim C8 amended: a missing file loads as the empty manifest and
unparseable text fails with `ManifestCorrupt`; but structurally unexpected
JSON is not rejected with `ManifestCorrupt`: wheel entries with missing or
empty fields are coerced with defaults and silently dropped (and a
non-coercible `size_bytes` raises an uncaught `TypeError` instead), while
the publish-side loader performs no validation at all. -/
theorem claim_C8_amended :
    load_manifest_gi .absent = .ok ("", [])
    ∧ load_manifest_pub .absent = .ok (.obj [("repo", .str ""), ("wheels", .arr [])])
    ∧ load_manifest_gi .invalidJson = .error .manifestCorrupt
    ∧ load_manifest_pub .invalidJson = .error .manifestCorrupt
    ∧ load_manifest_gi (.json emptyEntryManifest) = .ok ("o/r", [])
    ∧ load_manifest_gi
        (.json (.obj [("repo", .str "o/r"),
          ("wheels", .arr [.obj [("filename", .str "f"), ("package", .str "p"),
            ("version", .str "1"), ("sha256", .str "s"), ("release_tag", .str "t"),
            ("size_bytes", .null)]])]))
        = .error .pythonError :=
  ⟨rfl, rfl, rfl, rfl, rfl, rfl⟩

/-! ## `publish_release.py`: `ensure_repo` and `main`

`main` is modelled as a pure function from its inputs (command line, git
inference result, manifest file state, file-system facts about the wheel
paths) to a trace of external effects plus an outcome.  The external
release-creation call (`gh release create`, step `create_release`) appears
as an effect; its own failure mode is outside the model (the claims under
study only concern whether it is reached). -/

structure PublishInput where
  wheels : List PathInput
  tag : String
  /-- `args.repo or ""` (absent flag becomes the empty string). -/
  cliRepo : String
  /-- Result of `infer_repo_from_git()` (already `""` on any failure). -/
  inferredRepo : String
  manifestFile : FileState

inductive Effect where
  | createRelease (tag : String)
  | writeManifest (manifest : Json)
  | generateIndex

def Effect.isWrite : Effect → Bool
  | .writeManifest _ => true
  | _ => false

def Effect.isCreate : Effect → Bool
  | .createRelease _ => true
  | _ => false

/-- Model of `ensure_repo(manifest_repo, cli_repo)`. -/
def ensure_repo (manifest_repo cli_repo : String) : Except Err String :=
  if manifest_repo ≠ "" ∧ cli_repo ≠ "" ∧ manifest_repo ≠ cli_repo
  then .error (.repoConflict manifest_repo cli_repo)
  else .ok (if cli_repo ≠ "" then cli_repo else manifest_repo)

/-- The expression `str(manifest.get("repo", "")).strip()` (`.get` on a
non-dict raises `AttributeError`). -/
def getManifestRepo : Json → Except Err String
  | .obj fields => .ok (pyStrip (pyStr ((Json.lookup fields "repo").getD (.str ""))))
  | _ => .error .pythonError

/-- One element of the `existing` set: `(entry.get("release_tag"),
entry.get("filename"))`; a missing key yields Python `None`, which
coincides with a JSON `null` value, hence the `getD .null`. -/
def entryPair : Json → Except Err (Json × Json)
  | .obj f => .ok ((Json.lookup f "release_tag").getD .null,
                   (Json.lookup f "filename").getD .null)
  | _ => .error .pythonError

def entryPairs : List Json → Except Err (List (Json × Json))
  | [] => .ok []
  | item :: rest =>
    match entryPair item with
    | .error e => .error e
    | .ok p => (entryPairs rest).map (p :: ·)

/-- The `existing` set built from `manifest.get("wheels", [])` (iterating a
non-list raises unless it is an empty string or empty dict). -/
def existingPairs : Json → Except Err (List (Json × Json))
  | .obj fields =>
    match (Json.lookup fields "wheels").getD (.arr []) with
    | .arr items => entryPairs items
    | .str s => (match s.data with | [] => .ok [] | _ => .error .pythonError)
    | .obj f2 => (match f2 with | [] => .ok [] | _ => .error .pythonError)
    | _ => .error .pythonError
  | _ => .error .pythonError

/-- Python `==` between a JSON value and a string. -/
def jsonIsStr : Json → String → Bool
  | .str t, s => t == s
  | _, _ => false

/-- Python `==` between the tuple `(tag, filename)` and a stored pair. -/
def pairMatches (tag fn : String) (p : Json × Json) : Bool :=
  jsonIsStr p.1 tag && jsonIsStr p.2 fn

/-- The duplicate check loop: the first record whose
`(release_tag, filename)` is in `existing`. -/
def findDup (existing : List (Json × Json)) : List WheelRecord → Option WheelRecord
  | [] => none
  | r :: rest =>
    if existing.any (pairMatches r.release_tag r.filename) then some r
    else findDup existing rest

/-- Dict assignment `d[k] = v`: overwrite in place or append. -/
def setField (fields : List (String × Json)) (k : String) (v : Json) :
    List (String × Json) :=
  match fields with
  | [] => [(k, v)]
  | (k2, v2) :: rest => if k2 == k then (k, v) :: rest else (k2, v2) :: setField rest k v

/-- The dict literal appended per record. -/
def recordToJson (r : WheelRecord) : Json :=
  .obj [("filename", .str r.filename), ("package", .str r.package),
        ("version", .str r.version), ("size_bytes", .num (r.size_bytes : Int)),
        ("sha256", .str r.sha256), ("release_tag", .str r.release_tag)]

/-- The key `(entry["package"], entry["version"], entry["filename"])` of the
final sort; a missing key raises `KeyError`, and a non-string value makes
the tuple comparison raise `TypeError` (modelled as failing while the keys
are built). -/
def sortKeyOf : Json → Except Err (String × String × String)
  | .obj f =>
    match Json.lookup f "package", Json.lookup f "version", Json.lookup f "filename" with
    | some (.str p), some (.str v), some (.str fn) => .ok (p, v, fn)
    | _, _, _ => .error .pythonError
  | _ => .error .pythonError

def keyedEntries : List Json → Except Err (List ((String × String × String) × Json))
  | [] => .ok []
  | j :: rest =>
    match sortKeyOf j with
    | .error e => .error e
    | .ok k => (keyedEntries rest).map ((k, j) :: ·)

/-- `manifest["wheels"].sort(key=...)`: a stable sort by the string triple. -/
def sortWheelJsons (items : List Json) : Except Err (List Json) :=
  (keyedEntries items).map (fun ks =>
    (List.insertionSort (fun a b => tripleLe a.1 b.1 = true) ks).map (fun p => p.2))

/-- The wheels part of the manifest mutation: `manifest["wheels"].extend`
on the current list (a non-list raises `AttributeError`) followed by the
sort, producing the final document. -/
def buildFinalWheels (fields2 : List (String × Json)) (records : List WheelRecord) :
    Except Err Json :=
  match (Json.lookup fields2 "wheels").getD (.arr []) with
  | .arr old =>
    (match sortWheelJsons (old ++ records.map recordToJson) with
     | .error e => .error e
     | .ok sorted2 => .ok (.obj (setField fields2 "wheels" (.arr sorted2))))
  | _ => .error .pythonError

/-- The manifest mutation steps of `main` after the duplicate check:
`manifest["repo"] = repo`, `manifest.setdefault("wheels", [])`, extending
with the new records and sorting. -/
def buildFinal (manifest : Json) (repo : String) (records : List WheelRecord) :
    Except Err Json :=
  match manifest with
  | .obj fields =>
    buildFinalWheels
      (if (Json.lookup (setField fields "repo" (.str repo)) "wheels").isSome
       then setField fields "repo" (.str repo)
       else setField fields "repo" (.str repo) ++ [("wheels", .arr [])])
      records
  | _ => .error .pythonError

/-- Model of `main`: the straight-line body of `publish_release.main` with
each `SystemExit`/exception as an error outcome; the returned list is the
trace of external effects performed before returning. -/
def publish_main (inp : PublishInput) : List Effect × Except Err Unit :=
  let missing := inp.wheels.filter (fun p => !p.present)
  if missing.isEmpty then
    match ensure_repo inp.cliRepo inp.inferredRepo with
    | .error e => ([], .error e)
    | .ok repo1 =>
      if repo1 = "" then ([], .error .repoUnresolved)
      else
        match load_manifest_pub inp.manifestFile with
        | .error e => ([], .error e)
        | .ok manifest =>
          match getManifestRepo manifest with
          | .error e => ([], .error e)
          | .ok manifestRepo =>
            match ensure_repo manifestRepo repo1 with
            | .error e => ([], .error e)
            | .ok repo =>
              if repo = "" then ([], .error .repoUnresolved)
              else
                match collect_wheels inp.wheels inp.tag with
                | .error e => ([.createRelease inp.tag], .error e)
                | .ok records =>
                  match existingPairs manifest with
                  | .error e => ([.createRelease inp.tag], .error e)
                  | .ok existing =>
                    match findDup existing records with
                    | some r =>
                      ([.createRelease inp.tag],
                        .error (.duplicateArtifact r.filename r.release_tag))
                    | none =>
                      match buildFinal manifest repo records with
                      | .error e => ([.createRelease inp.tag], .error e)
                      | .ok final =>
                        ([.createRelease inp.tag, .writeManifest final, .generateIndex],
                          .ok ())
  else ([], .error (.missingArtifact (missing.map (fun p => p.name))))

/-- The repo value the manifest file would contribute, as read by `main`. -/
def manifestRepoSource (fs : FileState) : String :=
  match fs with
  | .json (.obj f) => pyStrip (pyStr ((Json.lookup f "repo").getD (.str "")))
  | _ => ""

lemma ensure_repo_ok_of_ne {a b c : String} (h : ensure_repo a b = .ok c)
    (hb : b ≠ "") : c = b := by
  unfold ensure_repo at h
  rw [if_pos hb] at h
  split at h
  · cases h
  · cases h
    rfl

lemma findDup_isSome_of_mem {existing : List (Json × Json)} :
    ∀ {records : List WheelRecord} {r}, r ∈ records →
      existing.any (pairMatches r.release_tag r.filename) = true →
      ∃ d, findDup existing records = some d := by
  intro records
  induction records with
  | nil => intro r h; cases h
  | cons q rest ih =>
    intro r hr hany
    by_cases hq : existing.any (pairMatches q.release_tag q.filename) = true
    · exact ⟨q, by simp [findDup, hq]⟩
    · rcases List.mem_cons.1 hr with rfl | hmem
      · exact absurd hany hq
      · rcases ih hmem hany with ⟨d, hd⟩
        exact ⟨d, by simp [findDup, hq, hd]⟩

/-- Claim C4: when neither the explicit flag nor the version-control
inference nor the manifest supplies a non-empty repo, publish fails with
`RepoUnresolved` and the effect trace is empty — in particular the external
release-creation mechanism is never invoked. -/
theorem claim_C4_repo_unresolved (inp : PublishInput)
    (hpresent : ∀ p ∈ inp.wheels, p.present = true)
    (hcli : inp.cliRepo = "") (hinf : inp.inferredRepo = "")
    (hman : manifestRepoSource inp.manifestFile = "") :
    publish_main inp = ([], .error .repoUnresolved) := by
  have hfilter : inp.wheels.filter (fun p => !p.present) = [] := by
    rw [List.filter_eq_nil_iff]
    intro p hp
    simp [hpresent p hp]
  have h1 : ensure_repo inp.cliRepo inp.inferredRepo = .ok "" := by
    rw [hcli, hinf]
    rfl
  unfold publish_main
  simp only [hfilter, List.isEmpty_nil, if_true, h1, if_pos rfl]

/-- Claim C4 witness: the theorem applied to a concrete invocation with a
present wheel, no `--repo` flag, no git inference, and no manifest file. -/
theorem claim_C4_repo_unresolved_witness :
    publish_main
        { wheels := [⟨"demo_pkg-1.2.3-py3-none-any.whl", true, 3, "abc"⟩],
          tag := "v1", cliRepo := "", inferredRepo := "",
          manifestFile := .absent }
      = ([], .error .repoUnresolved) :=
  claim_C4_repo_unresolved _ (by decide) rfl rfl rfl

/-- The failing input for claim C3: no `--repo` flag and no git remote, but
the manifest on disk carries the non-empty repo `owner/repo`. -/
def inpC3 : PublishInput :=
  { wheels := [⟨"demo_pkg-1.2.3-py3-none-any.whl", true, 3, "abc"⟩],
    tag := "v1", cliRepo := "", inferredRepo := "",
    manifestFile := .json (.obj [("repo", .str "owner/repo"), ("wheels", .arr [])]) }

/-- Claim C3, failing input: although the existing manifest supplies the
non-empty repo `owner/repo` (third source in the specified precedence), the
script exits `RepoUnresolved` before the manifest is even loaded — the later
check `Repo must be set in wheels.json or provided via --repo` is
unreachable.  The claim's fallback order (and the spec's
`explicit flag > version-control inference > existing manifest value`) says
this invocation should resolve the repo to `owner/repo`. -/
theorem claim_C3_repo_fallback_bug :
    manifestRepoSource inpC3.manifestFile = "owner/repo"
    ∧ publish_main inpC3 = ([], .error .repoUnresolved) :=
  ⟨rfl, rfl⟩

/-- Claim C1: a resolvable batch containing a `(release_tag, filename)` pair
that already exists in the manifest fails with `DuplicateArtifact`, and the
effect trace contains no manifest write. -/
theorem claim_C1_duplicate (inp : PublishInput) (m : Json) (r1 mr r2 : String)
    (records : List WheelRecord) (existing : List (Json × Json))
    (hpresent : ∀ p ∈ inp.wheels, p.present = true)
    (hr1 : ensure_repo inp.cliRepo inp.inferredRepo = .ok r1) (hr1ne : r1 ≠ "")
    (hm : load_manifest_pub inp.manifestFile = .ok m)
    (hmr : getManifestRepo m = .ok mr)
    (hr2 : ensure_repo mr r1 = .ok r2)
    (hcollect : collect_wheels inp.wheels inp.tag = .ok records)
    (hex : existingPairs m = .ok existing)
    (hdup : ∃ r ∈ records, existing.any (pairMatches r.release_tag r.filename) = true) :
    (∃ f t, publish_main inp
        = ([Effect.createRelease inp.tag], .error (.duplicateArtifact f t)))
    ∧ ∀ e ∈ (publish_main inp).1, e.isWrite = false := by
  have hfilter : inp.wheels.filter (fun p => !p.present) = [] := by
    rw [List.filter_eq_nil_iff]
    intro p hp
    simp [hpresent p hp]
  have hr2e : r2 = r1 := ensure_repo_ok_of_ne hr2 hr1ne
  have hr2ne : r2 ≠ "" := hr2e ▸ hr1ne
  rcases hdup with ⟨r, hrmem, hrany⟩
  rcases findDup_isSome_of_mem hrmem hrany with ⟨d, hd⟩
  have hmain : publish_main inp
      = ([Effect.createRelease inp.tag],
          .error (.duplicateArtifact d.filename d.release_tag)) := by
    unfold publish_main
    simp only [hfilter, List.isEmpty_nil, if_true, hr1, if_neg hr1ne, hm, hmr,
      hr2, if_neg hr2ne, hcollect, hex, hd]
  rw [hmain]
  refine ⟨⟨d.filename, d.release_tag, rfl⟩, ?_⟩
  intro e he
  rcases List.mem_singleton.1 he with rfl
  rfl

/-- The concrete duplicate scenario for the claim C1 witness. -/
def inpC1 : PublishInput :=
  { wheels := [⟨"demo_pkg-1.2.3-py3-none-any.whl", true, 3, "abc"⟩],
    tag := "v1", cliRepo := "o/r", inferredRepo := "",
    manifestFile := .json (.obj [("repo", .str "o/r"),
      ("wheels", .arr [.obj [("release_tag", .str "v1"),
        ("filename", .str "demo_pkg-1.2.3-py3-none-any.whl")]])]) }

/-- Claim C1 witness: the theorem applied to the concrete duplicate
scenario. -/
theorem claim_C1_duplicate_witness :
    (∃ f t, publish_main inpC1
        = ([Effect.createRelease "v1"], .error (.duplicateArtifact f t)))
    ∧ ∀ e ∈ (publish_main inpC1).1, e.isWrite = false :=
  claim_C1_duplicate inpC1
    (.obj [("repo", .str "o/r"),
      ("wheels", .arr [.obj [("release_tag", .str "v1"),
        ("filename", .str "demo_pkg-1.2.3-py3-none-any.whl")]])])
    "o/r" "o/r" "o/r"
    [⟨"demo_pkg-1.2.3-py3-none-any.whl", "demo-pkg", "1.2.3", 3, "abc", "v1"⟩]
    [(.str "v1", .str "demo_pkg-1.2.3-py3-none-any.whl")]
    (by decide) rfl (by decide) rfl rfl rfl rfl rfl
    ⟨⟨"demo_pkg-1.2.3-py3-none-any.whl", "demo-pkg", "1.2.3", 3, "abc", "v1"⟩,
      by decide, by decide⟩

/-! ### The `(release_tag, filename)` pairs of a manifest document -/

/-- The wheel list of a manifest document (empty for anything unexpected). -/
def wheelItems : Json → List Json
  | .obj fields =>
    (match (Json.lookup fields "wheels").getD (.arr []) with
     | .arr items => items
     | _ => [])
  | _ => []

/-- The `(release_tag, filename)` string pair of one stored wheel entry,
when both fields are present strings. -/
def itemStrPair : Json → Option (String × String)
  | .obj f =>
    (match Json.lookup f "release_tag", Json.lookup f "filename" with
     | some (.str t), some (.str fn) => some (t, fn)
     | _, _ => none)
  | _ => none

/-- All `(release_tag, filename)` string pairs stored in a manifest. -/
def wheelStrPairs (j : Json) : List (String × String) :=
  (wheelItems j).filterMap itemStrPair

/-- The manifest document `main` works on, as a function of the file
state. -/
def loadedManifest (fs : FileState) : Json :=
  match load_manifest_pub fs with
  | .ok j => j
  | .error _ => .null

lemma loadedManifest_eq {fs : FileState} {m : Json}
    (h : load_manifest_pub fs = .ok m) : loadedManifest fs = m := by
  unfold loadedManifest
  rw [h]

lemma findDup_none_iff {existing : List (Json × Json)} :
    ∀ {records : List WheelRecord}, findDup existing records = none →
      ∀ r ∈ records, existing.any (pairMatches r.release_tag r.filename) = false := by
  intro records
  induction records with
  | nil => intro _ r hr; cases hr
  | cons q rest ih =>
    intro h r hr
    by_cases hq : existing.any (pairMatches q.release_tag q.filename) = true
    · simp [findDup, hq] at h
    · rcases List.mem_cons.1 hr with rfl | hmem
      · simpa using hq
      · refine ih ?_ r hmem
        simpa [findDup, hq] using h

lemma entryPairs_of_strPair :
    ∀ {items : List Json} {ex : List (Json × Json)} {t fn : String},
      entryPairs items = .ok ex →
      (t, fn) ∈ items.filterMap itemStrPair →
      ∃ p ∈ ex, pairMatches t fn p = true := by
  intro items
  induction items with
  | nil =>
    intro ex t fn _ hmem
    simp at hmem
  | cons item rest ih =>
    intro ex t fn hex hmem
    rcases hp : entryPair item with _ | p
    · rw [entryPairs, hp] at hex
      cases hex
    · rw [entryPairs, hp] at hex
      rcases hrest : entryPairs rest with _ | exr
      · rw [hrest] at hex
        cases hex
      · rw [hrest] at hex
        simp only [Except.map, Except.ok.injEq] at hex
        subst hex
        rw [List.filterMap_cons] at hmem
        rcases hit : itemStrPair item with _ | pr
        · rw [hit] at hmem
          rcases ih hrest hmem with ⟨p2, hp2, hm2⟩
          exact ⟨p2, List.mem_cons_of_mem _ hp2, hm2⟩
        · rw [hit] at hmem
          rcases List.mem_cons.1 hmem with rfl | hmem2
          · refine ⟨p, List.mem_cons_self _ _, ?_⟩
            rcases item with _ | _ | _ | _ | _ | f
            all_goals simp [itemStrPair] at hit
            rcases h1 : Json.lookup f "release_tag" with _ | jt <;>
              rcases h2 : Json.lookup f "filename" with _ | jf
            all_goals rw [h1, h2] at hit
            · simp at hit
            · rcases jf with _ | _ | _ | sfn | _ | _ <;> simp at hit
            · rcases jt with _ | _ | _ | st | _ | _ <;> simp at hit
            · rcases jt with _ | _ | _ | st | _ | _ <;>
                rcases jf with _ | _ | _ | sfn | _ | _ <;>
                simp at hit
              rcases hit with ⟨rfl, rfl⟩
              simp only [entryPair, h1, h2, Option.getD, Except.ok.injEq] at hp
              rw [← hp]
              simp [pairMatches, jsonIsStr]
          · rcases ih hrest hmem2 with ⟨p2, hp2, hm2⟩
            exact ⟨p2, List.mem_cons_of_mem _ hp2, hm2⟩

lemma collect_wheels_pairs :
    ∀ {paths : List PathInput} {tag : String} {records : List WheelRecord},
      collect_wheels paths tag = .ok records →
      records.map (fun r => (r.release_tag, r.filename))
        = paths.map (fun p => (tag, p.name)) := by
  intro paths
  induction paths with
  | nil =>
    intro tag records h
    cases h
    rfl
  | cons p rest ih =>
    intro tag records h
    rw [collect_wheels] at h
    rcases hp : parseWheelName p.name with _ | nv
    · rw [hp] at h
      cases h
    · rw [hp] at h
      rcases hrest : collect_wheels rest tag with _ | rs
      · rw [hrest] at h
        cases h
      · rw [hrest] at h
        simp only [Except.map, Except.ok.injEq] at h
        subst h
        simp [ih hrest]

lemma keyedEntries_map_snd :
    ∀ {items : List Json} {ks : List ((String × String × String) × Json)},
      keyedEntries items = .ok ks → ks.map (fun p => p.2) = items := by
  intro items
  induction items with
  | nil =>
    intro ks h
    cases h
    rfl
  | cons j rest ih =>
    intro ks h
    rw [keyedEntries] at h
    rcases hk : sortKeyOf j with _ | k
    · rw [hk] at h
      cases h
    · rw [hk] at h
      rcases hrest : keyedEntries rest with _ | kr
      · rw [hrest] at h
        cases h
      · rw [hrest] at h
        simp only [Except.map, Except.ok.injEq] at h
        subst h
        simp [ih hrest]

lemma sortWheelJsons_perm {items sorted2 : List Json}
    (h : sortWheelJsons items = .ok sorted2) : sorted2.Perm items := by
  unfold sortWheelJsons at h
  rcases hk : keyedEntries items with _ | ks
  · rw [hk] at h
    cases h
  · rw [hk] at h
    simp only [Except.map, Except.ok.injEq] at h
    subst h
    have hperm := List.perm_insertionSort
      (fun a b => tripleLe a.1 b.1 = true) ks
    have := hperm.map (fun p : (String × String × String) × Json => p.2)
    rw [keyedEntries_map_snd hk] at this
    exact this

lemma list_lookup_setField_self :
    ∀ (fields : List (String × Json)) (k : String) (v : Json),
      List.lookup k (setField fields k v) = some v
  | [], k, v => by simp [setField, List.lookup]
  | (k3, v3) :: rest, k, v => by
    by_cases h3 : (k3 == k) = true
    · simp [setField, h3, List.lookup]
    · have h3e : ¬ k3 = k := by simpa using h3
      have hk : (k == k3) = false := by
        simp only [beq_eq_false_iff_ne, ne_eq]
        exact fun he => h3e he.symm
      simp only [setField, h3, Bool.false_eq_true, if_false]
      simp only [List.lookup, hk]
      exact list_lookup_setField_self rest k v

lemma list_lookup_setField_other :
    ∀ (fields : List (String × Json)) (k k2 : String) (v : Json), k2 ≠ k →
      List.lookup k2 (setField fields k v) = List.lookup k2 fields
  | [], k, k2, v, h => by
    have hk : (k2 == k) = false := by simpa [beq_eq_false_iff_ne] using h
    simp [setField, List.lookup, hk]
  | (k3, v3) :: rest, k, k2, v, h => by
    have hk : (k2 == k) = false := by simpa [beq_eq_false_iff_ne] using h
    by_cases h3 : (k3 == k) = true
    · have h3e : k3 = k := by simpa using h3
      subst h3e
      simp [setField, List.lookup, hk]
    · simp only [setField, h3, Bool.false_eq_true, if_false]
      by_cases h2 : (k2 == k3) = true
      · simp [List.lookup, h2]
      · have h2f : (k2 == k3) = false := by
          simpa using h2
        simp only [List.lookup, h2f]
        exact list_lookup_setField_other rest k k2 v h

lemma buildFinalWheels_ok {fields2 : List (String × Json)}
    {records : List WheelRecord} {final : Json} {old : List Json}
    (hw : Json.lookup fields2 "wheels" = some (.arr old))
    (h : buildFinalWheels fields2 records = .ok final) :
    ∃ sorted2, sortWheelJsons (old ++ records.map recordToJson) = .ok sorted2
      ∧ final = .obj (setField fields2 "wheels" (.arr sorted2)) := by
  unfold buildFinalWheels at h
  rw [hw] at h
  simp only [Option.getD_some] at h
  rcases hs : sortWheelJsons (old ++ records.map recordToJson) with _ | sorted2
  · rw [hs] at h
    cases h
  · rw [hs] at h
    cases h
    exact ⟨sorted2, rfl, rfl⟩

lemma wheelItems_of_lookup {fields : List (String × Json)} {items : List Json}
    (h : Json.lookup fields "wheels" = some (.arr items)) :
    wheelItems (.obj fields) = items := by
  dsimp only [wheelItems]
  rw [h]
  rfl

lemma buildFinal_wheels {m : Json} {repo : String} {records : List WheelRecord}
    {final : Json} (h : buildFinal m repo records = .ok final) :
    ∃ sorted2, sortWheelJsons (wheelItems m ++ records.map recordToJson) = .ok sorted2
      ∧ wheelItems final = sorted2 := by
  rcases m with _ | _ | _ | _ | _ | fields
  · cases h
  · cases h
  · cases h
  · cases h
  · cases h
  · dsimp only [buildFinal] at h
    have hrepo : Json.lookup (setField fields "repo" (.str repo)) "wheels"
        = Json.lookup fields "wheels" :=
      list_lookup_setField_other fields "repo" "wheels" (.str repo) (by decide)
    rcases hw : Json.lookup fields "wheels" with _ | wv
    · rw [hrepo, hw] at h
      simp only [Option.isSome_none, Bool.false_eq_true, if_false] at h
      have hl : Json.lookup (setField fields "repo" (.str repo) ++ [("wheels", .arr [])])
          "wheels" = some (.arr []) := by
        unfold Json.lookup
        rw [List.lookup_append]
        rw [show List.lookup "wheels" (setField fields "repo" (.str repo))
            = Json.lookup (setField fields "repo" (.str repo)) "wheels" from rfl]
        rw [hrepo, hw]
        rfl
      rcases buildFinalWheels_ok hl h with ⟨sorted2, hs, hfin⟩
      refine ⟨sorted2, ?_, ?_⟩
      · rw [← hs]
        congr 1
        have : wheelItems (.obj fields) = [] := by
          dsimp only [wheelItems]
          rw [hw]
          rfl
        rw [this]
      · rw [hfin]
        exact wheelItems_of_lookup (list_lookup_setField_self _ "wheels" _)
    · rw [hrepo, hw] at h
      simp only [Option.isSome_some, if_true] at h
      rcases wv with _ | _ | _ | _ | old | f2
      · exact absurd h (by unfold buildFinalWheels; rw [hrepo, hw]; simp)
      · exact absurd h (by unfold buildFinalWheels; rw [hrepo, hw]; simp)
      · exact absurd h (by unfold buildFinalWheels; rw [hrepo, hw]; simp)
      · exact absurd h (by unfold buildFinalWheels; rw [hrepo, hw]; simp)
      · have hl : Json.lookup (setField fields "repo" (.str repo)) "wheels"
            = some (.arr old) := by
          rw [hrepo, hw]
        rcases buildFinalWheels_ok hl h with ⟨sorted2, hs, hfin⟩
        refine ⟨sorted2, ?_, ?_⟩
        · rw [← hs]
          congr 2
          exact (wheelItems_of_lookup hw)
        · rw [hfin]
          exact wheelItems_of_lookup (list_lookup_setField_self _ "wheels" _)
      · exact absurd h (by unfold buildFinalWheels; rw [hrepo, hw]; simp)

lemma existingPairs_wheelItems {m : Json} {existing : List (Json × Json)}
    (h : existingPairs m = .ok existing) :
    entryPairs (wheelItems m) = .ok existing := by
  rcases m with _ | _ | _ | _ | _ | fields
  · cases h
  · cases h
  · cases h
  · cases h
  · cases h
  · dsimp only [existingPairs] at h
    dsimp only [wheelItems]
    rcases hw : (Json.lookup fields "wheels").getD (.arr []) with _ | _ | _ | s | items | f2
    · rw [hw] at h
      cases h
    · rw [hw] at h
      cases h
    · rw [hw] at h
      cases h
    · rw [hw] at h
      dsimp only at h ⊢
      rcases hs : s.data with _ | ⟨c, cs⟩
      · rw [hs] at h
        cases h
        rfl
      · rw [hs] at h
        cases h
    · rw [hw] at h
      dsimp only at h ⊢
      exact h
    · rw [hw] at h
      dsimp only at h ⊢
      rcases f2 with _ | ⟨kv, f3⟩
      · cases h
        rfl
      · cases h

lemma itemStrPair_record (r : WheelRecord) :
    itemStrPair (recordToJson r) = some (r.release_tag, r.filename) := rfl

lemma filterMap_recordToJson :
    ∀ (records : List WheelRecord),
      (records.map recordToJson).filterMap itemStrPair
        = records.map (fun r => (r.release_tag, r.filename))
  | [] => rfl
  | r :: rest => by
    simp only [List.map_cons, List.filterMap_cons, itemStrPair_record]
    rw [filterMap_recordToJson rest]

/-- Inversion of a successful run of `main`: every stage succeeded and the
trace is create-release, write-manifest, regenerate-index. -/
lemma publish_main_ok_inv (inp : PublishInput) (trace : List Effect)
    (h : publish_main inp = (trace, .ok ())) :
    ∃ m records existing final repo,
      load_manifest_pub inp.manifestFile = .ok m
      ∧ collect_wheels inp.wheels inp.tag = .ok records
      ∧ existingPairs m = .ok existing
      ∧ findDup existing records = none
      ∧ buildFinal m repo records = .ok final
      ∧ trace = [.createRelease inp.tag, .writeManifest final, .generateIndex] := by
  dsimp only [publish_main] at h
  split at h
  · split at h
    · simp at h
    · next r1 =>
      split at h
      · simp at h
      · split at h
        · simp at h
        · next m hm =>
          split at h
          · simp at h
          · next mr hmr =>
            split at h
            · simp at h
            · next repo hrepo =>
              split at h
              · simp at h
              · split at h
                · simp at h
                · next records hcollect =>
                  split at h
                  · simp at h
                  · next existing hex =>
                    split at h
                    · simp at h
                    · next hfd =>
                      split at h
                      · simp at h
                      · next final hbuild =>
                        have h1 := congrArg Prod.fst h
                        simp only [Prod.fst] at h1
                        exact ⟨m, records, existing, final, repo,
                          hm, hcollect, hex, hfd, hbuild, h1.symm⟩
  · simp at h

/-- Claim C2 amended: a successful publish whose batch has pairwise-distinct
filenames preserves pairwise-distinct `(release_tag, filename)` pairs in the
manifest it writes. -/
theorem claim_C2_pair_uniqueness (inp : PublishInput) (trace : List Effect)
    (final : Json)
    (hrun : publish_main inp = (trace, .ok ()))
    (hw : Effect.writeManifest final ∈ trace)
    (hold : (wheelStrPairs (loadedManifest inp.manifestFile)).Nodup)
    (hbatch : (inp.wheels.map (fun p => p.name)).Nodup) :
    (wheelStrPairs final).Nodup := by
  rcases publish_main_ok_inv inp trace hrun with
    ⟨m, records, existing, final2, repo, hm, hcollect, hex, hfd, hbuild, htrace⟩
  subst htrace
  have hfe : final = final2 := by
    rcases List.mem_cons.1 hw with h1 | hw2
    · cases h1
    · rcases List.mem_cons.1 hw2 with h1 | hw3
      · cases h1
        rfl
      · rcases List.mem_cons.1 hw3 with h1 | hw4
        · cases h1
        · cases hw4
  subst hfe
  rcases buildFinal_wheels hbuild with ⟨sorted2, hs, hwf⟩
  rw [wheelStrPairs, hwf]
  have hperm : sorted2.Perm (wheelItems m ++ records.map recordToJson) :=
    sortWheelJsons_perm hs
  refine ((hperm.filterMap itemStrPair).nodup_iff).2 ?_
  rw [List.filterMap_append, filterMap_recordToJson]
  have hold2 : ((wheelItems m).filterMap itemStrPair).Nodup := by
    rw [loadedManifest_eq hm] at hold
    exact hold
  have hrecpairs := collect_wheels_pairs hcollect
  have hnewnodup : (records.map (fun r => (r.release_tag, r.filename))).Nodup := by
    rw [hrecpairs, show inp.wheels.map (fun p => (inp.tag, p.name))
        = (inp.wheels.map (fun p => p.name)).map (fun n => (inp.tag, n)) by
      rw [List.map_map]
      rfl]
    exact hbatch.map (fun a b hab => congrArg Prod.snd hab)
  refine List.Nodup.append hold2 hnewnodup ?_
  intro pr hpr1 hpr2
  rcases pr with ⟨t, fn⟩
  rcases List.mem_map.1 hpr2 with ⟨r, hrmem, hreq⟩
  cases hreq
  rcases entryPairs_of_strPair (existingPairs_wheelItems hex) hpr1 with ⟨p, hpmem, hpm⟩
  have hany : existing.any (pairMatches r.release_tag r.filename) = true :=
    List.any_eq_true.2 ⟨p, hpmem, hpm⟩
  rw [findDup_none_iff hfd r hrmem] at hany
  cases hany

/-- The claim C2 counterexample input: a fresh manifest and a batch that
names the same wheel file twice. -/
def inpC2 : PublishInput :=
  { wheels := [⟨"demo_pkg-1.2.3-py3-none-any.whl", true, 3, "abc"⟩,
               ⟨"demo_pkg-1.2.3-py3-none-any.whl", true, 3, "abc"⟩],
    tag := "v1", cliRepo := "o/r", inferredRepo := "",
    manifestFile := .absent }

/-- Claim C2 counterexample: starting from a manifest with distinct pairs
(none at all), a publish whose `artifact_paths` list the same filename twice
completes successfully and writes a manifest holding the duplicated
`(release_tag, filename)` pair twice — the duplicate check only compares the
batch against the manifest, not the batch against itself. -/
theorem claim_C2_counterexample :
    (wheelStrPairs (loadedManifest inpC2.manifestFile)).Nodup
    ∧ ∃ final, publish_main inpC2
        = ([.createRelease "v1", .writeManifest final, .generateIndex], .ok ())
      ∧ ¬ (wheelStrPairs final).Nodup :=
  ⟨by decide, _, rfl, by decide⟩

/-- Claim C2 witness: the amended theorem applied to a concrete successful
publish with two distinct filenames. -/
theorem claim_C2_pair_uniqueness_witness :
    (wheelStrPairs ((publish_main
        { wheels := [⟨"demo_pkg-1.2.3-py3-none-any.whl", true, 3, "abc"⟩,
                     ⟨"other_pkg-2.0-py3-none-any.whl", true, 4, "def"⟩],
          tag := "v1", cliRepo := "o/r", inferredRepo := "",
          manifestFile := .absent }).1.foldl
      (fun acc e => match e with | Effect.writeManifest j => j | _ => acc) .null)).Nodup := by
  refine claim_C2_pair_uniqueness
    { wheels := [⟨"demo_pkg-1.2.3-py3-none-any.whl", true, 3, "abc"⟩,
                 ⟨"other_pkg-2.0-py3-none-any.whl", true, 4, "def"⟩],
      tag := "v1", cliRepo := "o/r", inferredRepo := "",
      manifestFile := .absent } _ _ rfl ?_ (by decide) (by decide)
  exact List.mem_cons_of_mem _ (List.mem_cons_self _ _)

/-! ## `write_manifest` / `load_manifest`: serialization round trip (claim C9)

`write_manifest` is `json.dumps(manifest, indent=2, sort_keys=True) + "\n"`;
`load_manifest` reads back with `json.loads`.  We model the serializer
exactly (two-space indentation, sorted keys, `ensure_ascii` escapes) and a
strict JSON parser; floats are outside the model (this pipeline only writes
integers), and the parser keeps duplicate object keys in order instead of
Python's last-wins (the serializer never emits duplicates). -/

def indentChars (d : Nat) : List Char := List.replicate (2 * d) ' '

def hex4 (n : Nat) : List Char :=
  [Nat.digitChar (n / 4096 % 16), Nat.digitChar (n / 256 % 16),
   Nat.digitChar (n / 16 % 16), Nat.digitChar (n % 16)]

/-- One character escaped as by `json.dumps` with `ensure_ascii=True`. -/
def escapeChar (c : Char) : List Char :=
  if c = '"' then ['\\', '"']
  else if c = '\\' then ['\\', '\\']
  else if c = '\n' then ['\\', 'n']
  else if c = '\r' then ['\\', 'r']
  else if c = '\t' then ['\\', 't']
  else if c.toNat = 8 then ['\\', 'b']
  else if c.toNat = 12 then ['\\', 'f']
  else if 32 ≤ c.toNat ∧ c.toNat < 127 then [c]
  else if c.toNat < 65536 then '\\' :: 'u' :: hex4 c.toNat
  else
    '\\' :: 'u' :: hex4 (55296 + (c.toNat - 65536) / 1024)
      ++ '\\' :: 'u' :: hex4 (56320 + (c.toNat - 65536) % 1024)

def escapeStr (s : List Char) : List Char := (s.map escapeChar).flatten

def printKey (k : String) : List Char := '"' :: escapeStr k.data ++ ['"']

def intToChars (n : Int) : List Char := (intToString n).data

mutual

/-- The text `json.dumps` produces for a value whose object keys are
already sorted (the key sorting of `sort_keys=True` is applied by
`canonJson` below), at indentation depth `d`. -/
def printVal (d : Nat) : Json → List Char
  | .null => "null".data
  | .bool true => "true".data
  | .bool false => "false".data
  | .num n => intToChars n
  | .str s => '"' :: escapeStr s.data ++ ['"']
  | .arr [] => ['[', ']']
  | .arr (x :: xs) =>
    '[' :: '\n' :: printListItems (d + 1) (x :: xs) ++ '\n' :: indentChars d ++ [']']
  | .obj [] => ['\x7b', '\x7d']
  | .obj (f :: fs) =>
    '\x7b' :: '\n' :: printFieldItems (d + 1) (f :: fs) ++ '\n' :: indentChars d ++ ['\x7d']

def printListItems (d : Nat) : List Json → List Char
  | [] => []
  | [j] => indentChars d ++ printVal d j
  | j :: k :: rest =>
    indentChars d ++ printVal d j ++ ',' :: '\n' :: printListItems d (k :: rest)

def printFieldItems (d : Nat) : List (String × Json) → List Char
  | [] => []
  | [(k, v)] => indentChars d ++ printKey k ++ ':' :: ' ' :: printVal d v
  | (k, v) :: f :: rest =>
    indentChars d ++ printKey k ++ ':' :: ' ' :: printVal d v
      ++ ',' :: '\n' :: printFieldItems d (f :: rest)

end

mutual

/-- Recursively sort all object keys (the effect of `sort_keys=True`,
applied once up front). -/
def canonJson : Json → Json
  | .null => .null
  | .bool b => .bool b
  | .num n => .num n
  | .str s => .str s
  | .arr items => .arr (canonList items)
  | .obj fields =>
    .obj (List.insertionSort (fun a b => pyStrLe a.1 b.1 = true) (canonFields fields))

def canonList : List Json → List Json
  | [] => []
  | j :: rest => canonJson j :: canonList rest

def canonFields : List (String × Json) → List (String × Json)
  | [] => []
  | (k, v) :: rest => (k, canonJson v) :: canonFields rest

end

mutual

/-- Structural size used as parser fuel. -/
def jsize : Json → Nat
  | .arr items => jsizeL items + 1
  | .obj fields => jsizeF fields + 1
  | _ => 1

def jsizeL : List Json → Nat
  | [] => 1
  | j :: rest => jsize j + jsizeL rest

def jsizeF : List (String × Json) → Nat
  | [] => 1
  | (k0, v) :: rest => jsize v + jsizeF rest

end

/-- Model of `json.dumps(manifest, indent=2, sort_keys=True)`. -/
def dumpsJson (j : Json) : String :=
  String.mk (printVal 0 (canonJson j))

/-- Model of `write_manifest`'s file content:
`json.dumps(...) + "\n"`. -/
def writeManifestText (j : Json) : String :=
  dumpsJson j ++ "\n"

/-! ### The JSON parser (model of `json.loads` on the documents this
program reads and writes) -/

def isJsonWs (c : Char) : Bool := c = ' ' || c = '\t' || c = '\n' || c = '\r'

def skipWs (cs : List Char) : List Char := cs.dropWhile isJsonWs

def hexVal (c : Char) : Option Nat :=
  if 48 ≤ c.toNat ∧ c.toNat ≤ 57 then some (c.toNat - 48)
  else if 97 ≤ c.toNat ∧ c.toNat ≤ 102 then some (c.toNat - 87)
  else if 65 ≤ c.toNat ∧ c.toNat ≤ 70 then some (c.toNat - 55)
  else none

def hex4Val (a b c d : Char) : Option Nat :=
  match hexVal a, hexVal b, hexVal c, hexVal d with
  | some ha, some hb, some hc, some hd =>
    some (((ha * 16 + hb) * 16 + hc) * 16 + hd)
  | _, _, _, _ => none

def decodeLow2 (hi m : Nat) (rest : List Char) : Option (Char × List Char) :=
  if 56320 ≤ m ∧ m < 57344 then
    some (Char.ofNat (65536 + (hi - 55296) * 1024 + (m - 56320)), rest)
  else none

/-- Decode the second half of a surrogate pair following a high
surrogate `hi`. -/
def decodeLow (hi : Nat) : List Char → Option (Char × List Char)
  | x1 :: x2 :: a :: b :: c :: d :: rest =>
    if x1 = '\\' ∧ x2 = 'u' then
      match hex4Val a b c d with
      | none => none
      | some m => decodeLow2 hi m rest
    else none
  | _ => none

def decodeU2 (n : Nat) (rest : List Char) : Option (Char × List Char) :=
  if 55296 ≤ n ∧ n < 56320 then decodeLow n rest
  else if 56320 ≤ n ∧ n < 57344 then none
  else some (Char.ofNat n, rest)

/-- Decode a `\uXXXX` escape (with surrogate-pair recombination; lone
surrogates are rejected since Lean characters are scalar values, while
Python would keep them). -/
def decodeU : List Char → Option (Char × List Char)
  | a :: b :: c :: d :: rest =>
    (match hex4Val a b c d with
     | none => none
     | some n => decodeU2 n rest)
  | _ => none

/-- Decode one escape sequence after a backslash. -/
def decodeEscape : List Char → Option (Char × List Char)
  | [] => none
  | e :: rest =>
    if e = '"' then some ('"', rest)
    else if e = '\\' then some ('\\', rest)
    else if e = '/' then some ('/', rest)
    else if e = 'n' then some ('\n', rest)
    else if e = 't' then some ('\t', rest)
    else if e = 'r' then some ('\r', rest)
    else if e = 'b' then some ('\x08', rest)
    else if e = 'f' then some ('\x0c', rest)
    else if e = 'u' then decodeU rest
    else none

/-- String-body parser: characters until the closing quote, decoding the
JSON escapes; raw control characters are rejected (`json.loads` is
strict). -/
def parseJString : Nat → List Char → Option (List Char × List Char)
  | 0, _ => none
  | _ + 1, [] => none
  | fuel + 1, c :: rest =>
    if c = '"' then some ([], rest)
    else if c = '\\' then
      match decodeEscape rest with
      | none => none
      | some (d, rest2) => (parseJString fuel rest2).map (fun p => (d :: p.1, p.2))
    else if c.toNat < 32 then none
    else (parseJString fuel rest).map (fun p => (c :: p.1, p.2))

/-- Maximal prefix of decimal digits. -/
def takeDigits : List Char → List Char × List Char
  | [] => ([], [])
  | c :: rest =>
    if c.isDigit then
      (fun p => (c :: p.1, p.2)) (takeDigits rest)
    else ([], c :: rest)

def digitsToNat (ds : List Char) : Nat :=
  ds.foldl (fun acc c => acc * 10 + (c.toNat - 48)) 0

/-- A character list that cannot extend a preceding integer literal (a
fraction dot, an exponent letter, or another digit would). -/
def numBoundaryB : List Char → Bool
  | [] => true
  | c :: _ => !(c.isDigit || c = '.' || c = 'e' || c = 'E')

/-- Integer-literal parser (JSON grammar without fractions or exponents:
floats are outside the model, and a leading zero is rejected as in JSON;
a following `.`/`e`/`E` would start a float literal and is rejected too). -/
def parseJNat (cs : List Char) : Option (Nat × List Char) :=
  match takeDigits cs with
  | ([], _) => none
  | (d0 :: ds, rest) =>
    if d0 = '0' ∧ ds ≠ [] then none
    else if numBoundaryB rest then some (digitsToNat (d0 :: ds), rest)
    else none

mutual

/-- Value parser; the fuel argument strictly exceeds the structural size of
any value the text can denote. -/
def parseVal : Nat → List Char → Option (Json × List Char)
  | 0, _ => none
  | fuel + 1, cs =>
    match skipWs cs with
    | [] => none
    | c :: rest =>
      if c = 'n' then
        (match rest with
         | 'u' :: 'l' :: 'l' :: rest2 => some (.null, rest2)
         | _ => none)
      else if c = 't' then
        (match rest with
         | 'r' :: 'u' :: 'e' :: rest2 => some (.bool true, rest2)
         | _ => none)
      else if c = 'f' then
        (match rest with
         | 'a' :: 'l' :: 's' :: 'e' :: rest2 => some (.bool false, rest2)
         | _ => none)
      else if c = '"' then
        (parseJString (rest.length + 1) rest).map (fun p => (.str (String.mk p.1), p.2))
      else if c = '[' then
        (match skipWs rest with
         | [] => none
         | c2 :: rest2 =>
           if c2 = ']' then some (.arr [], rest2)
           else (parseArrItems fuel rest).map (fun p => (.arr p.1, p.2)))
      else if c = '\x7b' then
        (match skipWs rest with
         | [] => none
         | c2 :: rest2 =>
           if c2 = '\x7d' then some (.obj [], rest2)
           else (parseObjFields fuel rest).map (fun p => (.obj p.1, p.2)))
      else if c = '-' then
        (parseJNat rest).map (fun p => (.num (-(p.1 : Int)), p.2))
      else if c.isDigit then
        (parseJNat (c :: rest)).map (fun p => (.num ((p.1 : Nat) : Int), p.2))
      else none

def parseArrItems : Nat → List Char → Option (List Json × List Char)
  | 0, _ => none
  | fuel + 1, cs =>
    match parseVal fuel cs with
    | none => none
    | some (v, rest) =>
      match skipWs rest with
      | [] => none
      | c2 :: rest2 =>
        if c2 = ',' then (parseArrItems fuel rest2).map (fun p => (v :: p.1, p.2))
        else if c2 = ']' then some ([v], rest2)
        else none

def parseObjFields : Nat → List Char → Option (List (String × Json) × List Char)
  | 0, _ => none
  | fuel + 1, cs =>
    match skipWs cs with
    | [] => none
    | c0 :: rest =>
      if c0 = '"' then
        match parseJString (rest.length + 1) rest with
        | none => none
        | some (k, rest2) =>
          match skipWs rest2 with
          | [] => none
          | c1 :: rest3 =>
            if c1 = ':' then
              match parseVal fuel rest3 with
              | none => none
              | some (v, rest4) =>
                match skipWs rest4 with
                | [] => none
                | c2 :: rest5 =>
                  if c2 = ',' then
                    (parseObjFields fuel rest5).map
                      (fun p => ((String.mk k, v) :: p.1, p.2))
                  else if c2 = '\x7d' then some ([(String.mk k, v)], rest5)
                  else none
            else none
      else none

end

/-- Model of `json.loads` on a whole document: a single value with only
whitespace around it. -/
def loadsJson (s : String) : Option Json :=
  match parseVal (s.length + 1) s.data with
  | some (j, rest) => (match skipWs rest with | [] => some j | _ => none)
  | none => none

/-! ### Round-trip lemmas: whitespace and escapes -/

def allWs (ws : List Char) : Prop := ∀ c ∈ ws, isJsonWs c = true

lemma skipWs_append_ws {ws l : List Char} (h : allWs ws) :
    skipWs (ws ++ l) = skipWs l := by
  induction ws with
  | nil => rfl
  | cons c rest ih =>
    have hc := h c (List.mem_cons_self _ _)
    simp only [List.cons_append, skipWs, List.dropWhile_cons_of_pos hc]
    exact ih (fun d hd => h d (List.mem_cons_of_mem _ hd))

lemma skipWs_cons_not {c : Char} {l : List Char} (h : isJsonWs c = false) :
    skipWs (c :: l) = c :: l :=
  List.dropWhile_cons_of_neg (by simp [h])

lemma allWs_nil : allWs [] := fun c hc => absurd hc (List.not_mem_nil c)

lemma allWs_newline : allWs ['\n'] := by
  intro c hc
  rcases List.mem_singleton.1 hc with rfl
  rfl

lemma allWs_space : allWs [' '] := by
  intro c hc
  rcases List.mem_singleton.1 hc with rfl
  rfl

lemma allWs_indent (d : Nat) : allWs (indentChars d) := by
  intro c hc
  rcases List.eq_of_mem_replicate hc with rfl
  rfl

lemma allWs_append {a b : List Char} (ha : allWs a) (hb : allWs b) :
    allWs (a ++ b) := by
  intro c hc
  rcases List.mem_append.1 hc with h | h
  · exact ha c h
  · exact hb c h

lemma isJsonWs_toNat {c : Char} (h : isJsonWs c = true) :
    c.toNat = 32 ∨ c.toNat = 9 ∨ c.toNat = 10 ∨ c.toNat = 13 := by
  unfold isJsonWs at h
  simp only [Bool.or_eq_true, decide_eq_true_eq] at h
  rcases h with ((h | h) | h) | h <;> subst h <;> simp

lemma isDigit_toNat {c : Char} (h : c.isDigit = true) :
    48 ≤ c.toNat ∧ c.toNat ≤ 57 := by
  unfold Char.isDigit at h
  simp only [Bool.and_eq_true, decide_eq_true_eq] at h
  exact ⟨h.1, h.2⟩

lemma isDigit_eq_false_of_toNat {c : Char}
    (h : ¬(48 ≤ c.toNat ∧ c.toNat ≤ 57)) : c.isDigit = false := by
  rw [Bool.eq_false_iff]
  intro hd
  exact h (isDigit_toNat hd)

lemma ne_of_toNat_ne {c d : Char} (h : c.toNat ≠ d.toNat) : c ≠ d :=
  fun he => h (char_eq_iff_toNat.1 he)

lemma numBoundaryB_of_ws_bracket {ws2 rest : List Char} {b : Char}
    (hws : allWs ws2) (hb : b.toNat ≠ 46 ∧ b.toNat ≠ 101 ∧ b.toNat ≠ 69
      ∧ ¬(48 ≤ b.toNat ∧ b.toNat ≤ 57)) :
    numBoundaryB (ws2 ++ b :: rest) = true := by
  rcases ws2 with _ | ⟨c, ws3⟩
  · simp only [List.nil_append, numBoundaryB]
    rw [Bool.not_eq_eq_eq_not, Bool.not_true, Bool.or_eq_false_iff,
      Bool.or_eq_false_iff, Bool.or_eq_false_iff]
    refine ⟨⟨⟨?_, ?_⟩, ?_⟩, ?_⟩
    · exact isDigit_eq_false_of_toNat hb.2.2.2
    · simp only [decide_eq_false_iff_not]
      exact ne_of_toNat_ne (by simpa using hb.1)
    · simp only [decide_eq_false_iff_not]
      exact ne_of_toNat_ne (by simpa using hb.2.1)
    · simp only [decide_eq_false_iff_not]
      exact ne_of_toNat_ne (by simpa using hb.2.2.1)
  · have hc := hws c (List.mem_cons_self _ _)
    rcases isJsonWs_toNat hc with h | h | h | h <;>
    · simp only [List.cons_append, numBoundaryB]
      rw [Bool.not_eq_eq_eq_not, Bool.not_true, Bool.or_eq_false_iff,
        Bool.or_eq_false_iff, Bool.or_eq_false_iff]
      refine ⟨⟨⟨?_, ?_⟩, ?_⟩, ?_⟩
      · exact isDigit_eq_false_of_toNat (by omega)
      · simp only [decide_eq_false_iff_not]
        exact ne_of_toNat_ne (by simp [h])
      · simp only [decide_eq_false_iff_not]
        exact ne_of_toNat_ne (by simp [h])
      · simp only [decide_eq_false_iff_not]
        exact ne_of_toNat_ne (by simp [h])

/-! ### Hex digits and escaped characters -/

lemma hexVal_digitChar {n : Nat} (h : n < 16) :
    hexVal (Nat.digitChar n) = some n := by
  interval_cases n <;> decide

lemma char_valid (c : Char) :
    c.toNat < 55296 ∨ (57343 < c.toNat ∧ c.toNat < 1114112) := c.valid

/-! ### Escape decoding round trip -/

lemma string_mk_data (s : String) : String.mk s.data = s := rfl

lemma decodeEscape_quote (l : List Char) : decodeEscape ('"' :: l) = some ('"', l) := rfl
lemma decodeEscape_bslash (l : List Char) : decodeEscape ('\\' :: l) = some ('\\', l) := rfl
lemma decodeEscape_n (l : List Char) : decodeEscape ('n' :: l) = some ('\n', l) := rfl
lemma decodeEscape_r (l : List Char) : decodeEscape ('r' :: l) = some ('\r', l) := rfl
lemma decodeEscape_t (l : List Char) : decodeEscape ('t' :: l) = some ('\t', l) := rfl
lemma decodeEscape_b (l : List Char) : decodeEscape ('b' :: l) = some ('\x08', l) := rfl
lemma decodeEscape_f (l : List Char) : decodeEscape ('f' :: l) = some ('\x0c', l) := rfl
lemma decodeEscape_u (l : List Char) : decodeEscape ('u' :: l) = decodeU l := rfl

lemma parseJString_close (f : Nat) (l : List Char) :
    parseJString (f + 1) ('"' :: l) = some ([], l) := by
  simp only [parseJString, reduceIte]

lemma parseJString_bslash {l l2 : List Char} {d : Char} (f : Nat)
    (hd : decodeEscape l = some (d, l2)) :
    parseJString (f + 1) ('\\' :: l) =
      (parseJString f l2).map (fun p => (d :: p.1, p.2)) := by
  simp only [parseJString, reduceIte]
  rw [hd, if_neg (show ¬('\\' = '"') by decide)]

lemma parseJString_plain {c : Char} (f : Nat) (l : List Char)
    (h1 : ¬ c = '"') (h2 : ¬ c = '\\') (h3 : ¬ c.toNat < 32) :
    parseJString (f + 1) (c :: l) =
      (parseJString f l).map (fun p => (c :: p.1, p.2)) := by
  simp only [parseJString]
  rw [if_neg h1, if_neg h2, if_neg h3]

lemma hex4Val_digits {n : Nat} (h : n < 65536) :
    hex4Val (Nat.digitChar (n / 4096 % 16)) (Nat.digitChar (n / 256 % 16))
      (Nat.digitChar (n / 16 % 16)) (Nat.digitChar (n % 16)) = some n := by
  unfold hex4Val
  rw [hexVal_digitChar (Nat.mod_lt _ (by norm_num)),
    hexVal_digitChar (Nat.mod_lt _ (by norm_num)),
    hexVal_digitChar (Nat.mod_lt _ (by norm_num)),
    hexVal_digitChar (Nat.mod_lt _ (by norm_num))]
  have hv : (n / 4096 % 16 * 16 + n / 256 % 16) * 16 + n / 16 % 16 = n / 16 := by
    omega
  exact congrArg some (by omega)

lemma hex4_append (n : Nat) (l : List Char) :
    hex4 n ++ l = Nat.digitChar (n / 4096 % 16) :: Nat.digitChar (n / 256 % 16)
      :: Nat.digitChar (n / 16 % 16) :: Nat.digitChar (n % 16) :: l := rfl

lemma decodeU_cons (a b c d : Char) (rest : List Char) :
    decodeU (a :: b :: c :: d :: rest) =
      (match hex4Val a b c d with
       | none => none
       | some n => decodeU2 n rest) := rfl

lemma decodeLow_cons (hi : Nat) (a b c d : Char) (rest : List Char) :
    decodeLow hi ('\\' :: 'u' :: a :: b :: c :: d :: rest) =
      (match hex4Val a b c d with
       | none => none
       | some m => decodeLow2 hi m rest) := by
  simp only [decodeLow, reduceIte]
  rfl

lemma decodeU_hex4 {n : Nat} (h : n < 65536)
    (hs : n < 55296 ∨ 57343 < n) (l : List Char) :
    decodeU (hex4 n ++ l) = some (Char.ofNat n, l) := by
  rw [hex4_append, decodeU_cons, hex4Val_digits h]
  show decodeU2 n l = some (Char.ofNat n, l)
  unfold decodeU2
  rw [if_neg (by omega), if_neg (by omega)]

lemma decodeU_surrogate {t : Nat} (h1 : 65536 ≤ t) (h2 : t < 1114112) (l : List Char) :
    decodeU (hex4 (55296 + (t - 65536) / 1024) ++
      ('\\' :: 'u' :: (hex4 (56320 + (t - 65536) % 1024) ++ l)))
      = some (Char.ofNat t, l) := by
  have hhi : 55296 + (t - 65536) / 1024 < 65536 := by omega
  have hlo : 56320 + (t - 65536) % 1024 < 65536 := by omega
  rw [hex4_append, decodeU_cons, hex4Val_digits hhi]
  show decodeU2 (55296 + (t - 65536) / 1024)
    ('\\' :: 'u' :: (hex4 (56320 + (t - 65536) % 1024) ++ l)) = some (Char.ofNat t, l)
  unfold decodeU2
  rw [if_pos (by omega : 55296 ≤ 55296 + (t - 65536) / 1024
    ∧ 55296 + (t - 65536) / 1024 < 56320)]
  rw [hex4_append, decodeLow_cons, hex4Val_digits hlo]
  show decodeLow2 (55296 + (t - 65536) / 1024) (56320 + (t - 65536) % 1024) l
    = some (Char.ofNat t, l)
  unfold decodeLow2
  rw [if_pos (by omega : 56320 ≤ 56320 + (t - 65536) % 1024
    ∧ 56320 + (t - 65536) % 1024 < 57344)]
  have hv : 65536 + (55296 + (t - 65536) / 1024 - 55296) * 1024
      + (56320 + (t - 65536) % 1024 - 56320) = t := by omega
  rw [hv]

/-- Round trip for string bodies: parsing the escaped text of `cs`
followed by the closing quote recovers `cs` exactly. -/
lemma parseJString_escapeStr :
    ∀ (cs : List Char) (fuel : Nat) (rest : List Char),
      (escapeStr cs).length < fuel →
      parseJString fuel (escapeStr cs ++ '"' :: rest) = some (cs, rest) := by
  intro cs
  induction cs with
  | nil =>
    intro fuel rest hf
    obtain ⟨f, rfl⟩ : ∃ f, fuel = f + 1 := ⟨fuel - 1, by omega⟩
    exact parseJString_close f rest
  | cons c cs ih =>
    intro fuel rest hf
    have hes : escapeStr (c :: cs) = escapeChar c ++ escapeStr cs := by
      simp [escapeStr]
    rw [hes] at hf ⊢
    rw [List.length_append] at hf
    rw [List.append_assoc]
    by_cases h1 : c = '"'
    · subst h1
      have he : escapeChar '"' = ['\\', '"'] := rfl
      rw [he] at hf ⊢
      simp only [List.length_cons, List.length_nil] at hf
      obtain ⟨f, rfl⟩ : ∃ f, fuel = f + 1 := ⟨fuel - 1, by omega⟩
      simp only [List.cons_append, List.nil_append]
      rw [parseJString_bslash f (decodeEscape_quote _), ih f rest (by omega)]
      rfl
    by_cases h2 : c = '\\'
    · subst h2
      have he : escapeChar '\\' = ['\\', '\\'] := rfl
      rw [he] at hf ⊢
      simp only [List.length_cons, List.length_nil] at hf
      obtain ⟨f, rfl⟩ : ∃ f, fuel = f + 1 := ⟨fuel - 1, by omega⟩
      simp only [List.cons_append, List.nil_append]
      rw [parseJString_bslash f (decodeEscape_bslash _), ih f rest (by omega)]
      rfl
    by_cases h3 : c = '\n'
    · subst h3
      have he : escapeChar '\n' = ['\\', 'n'] := rfl
      rw [he] at hf ⊢
      simp only [List.length_cons, List.length_nil] at hf
      obtain ⟨f, rfl⟩ : ∃ f, fuel = f + 1 := ⟨fuel - 1, by omega⟩
      simp only [List.cons_append, List.nil_append]
      rw [parseJString_bslash f (decodeEscape_n _), ih f rest (by omega)]
      rfl
    by_cases h4 : c = '\r'
    · subst h4
      have he : escapeChar '\r' = ['\\', 'r'] := rfl
      rw [he] at hf ⊢
      simp only [List.length_cons, List.length_nil] at hf
      obtain ⟨f, rfl⟩ : ∃ f, fuel = f + 1 := ⟨fuel - 1, by omega⟩
      simp only [List.cons_append, List.nil_append]
      rw [parseJString_bslash f (decodeEscape_r _), ih f rest (by omega)]
      rfl
    by_cases h5 : c = '\t'
    · subst h5
      have he : escapeChar '\t' = ['\\', 't'] := rfl
      rw [he] at hf ⊢
      simp only [List.length_cons, List.length_nil] at hf
      obtain ⟨f, rfl⟩ : ∃ f, fuel = f + 1 := ⟨fuel - 1, by omega⟩
      simp only [List.cons_append, List.nil_append]
      rw [parseJString_bslash f (decodeEscape_t _), ih f rest (by omega)]
      rfl
    by_cases h6 : c.toNat = 8
    · have hc : c = '\x08' := char_eq_iff_toNat.2 (by rw [h6]; rfl)
      subst hc
      have he : escapeChar '\x08' = ['\\', 'b'] := rfl
      rw [he] at hf ⊢
      simp only [List.length_cons, List.length_nil] at hf
      obtain ⟨f, rfl⟩ : ∃ f, fuel = f + 1 := ⟨fuel - 1, by omega⟩
      simp only [List.cons_append, List.nil_append]
      rw [parseJString_bslash f (decodeEscape_b _), ih f rest (by omega)]
      rfl
    by_cases h7 : c.toNat = 12
    · have hc : c = '\x0c' := char_eq_iff_toNat.2 (by rw [h7]; rfl)
      subst hc
      have he : escapeChar '\x0c' = ['\\', 'f'] := rfl
      rw [he] at hf ⊢
      simp only [List.length_cons, List.length_nil] at hf
      obtain ⟨f, rfl⟩ : ∃ f, fuel = f + 1 := ⟨fuel - 1, by omega⟩
      simp only [List.cons_append, List.nil_append]
      rw [parseJString_bslash f (decodeEscape_f _), ih f rest (by omega)]
      rfl
    by_cases h8 : 32 ≤ c.toNat ∧ c.toNat < 127
    · have he : escapeChar c = [c] := by
        unfold escapeChar
        rw [if_neg h1, if_neg h2, if_neg h3, if_neg h4, if_neg h5,
          if_neg h6, if_neg h7, if_pos h8]
      rw [he] at hf ⊢
      simp only [List.length_cons, List.length_nil] at hf
      obtain ⟨f, rfl⟩ : ∃ f, fuel = f + 1 := ⟨fuel - 1, by omega⟩
      simp only [List.cons_append, List.nil_append]
      rw [parseJString_plain f _ h1 h2 (by omega), ih f rest (by omega)]
      rfl
    by_cases h9 : c.toNat < 65536
    · have he : escapeChar c = '\\' :: 'u' :: hex4 c.toNat := by
        unfold escapeChar
        rw [if_neg h1, if_neg h2, if_neg h3, if_neg h4, if_neg h5,
          if_neg h6, if_neg h7, if_neg h8, if_pos h9]
      have hlen : (escapeChar c).length = 6 := by rw [he]; rfl
      rw [hlen] at hf
      rw [he]
      obtain ⟨f, rfl⟩ : ∃ f, fuel = f + 1 := ⟨fuel - 1, by omega⟩
      simp only [List.cons_append]
      have hdec : decodeEscape ('u' :: (hex4 c.toNat ++ (escapeStr cs ++ '"' :: rest)))
          = some (c, escapeStr cs ++ '"' :: rest) := by
        rw [decodeEscape_u,
          decodeU_hex4 h9 (Or.imp id And.left (char_valid c)) _,
          Char.ofNat_toNat]
      rw [parseJString_bslash f hdec, ih f rest (by omega)]
      rfl
    · have hv := char_valid c
      have h10 : 65536 ≤ c.toNat ∧ c.toNat < 1114112 := by omega
      have he : escapeChar c = ('\\' :: 'u' :: hex4 (55296 + (c.toNat - 65536) / 1024))
          ++ ('\\' :: 'u' :: hex4 (56320 + (c.toNat - 65536) % 1024)) := by
        unfold escapeChar
        rw [if_neg h1, if_neg h2, if_neg h3, if_neg h4, if_neg h5,
          if_neg h6, if_neg h7, if_neg h8, if_neg h9]
      have hlen : (escapeChar c).length = 12 := by rw [he]; rfl
      rw [hlen] at hf
      rw [he]
      obtain ⟨f, rfl⟩ : ∃ f, fuel = f + 1 := ⟨fuel - 1, by omega⟩
      simp only [List.cons_append, List.append_assoc]
      have hdec : decodeEscape ('u' :: (hex4 (55296 + (c.toNat - 65536) / 1024) ++
          ('\\' :: 'u' :: (hex4 (56320 + (c.toNat - 65536) % 1024) ++
            (escapeStr cs ++ '"' :: rest)))))
          = some (c, escapeStr cs ++ '"' :: rest) := by
        rw [decodeEscape_u, decodeU_surrogate h10.1 h10.2 _, Char.ofNat_toNat]
      rw [parseJString_bslash f hdec, ih f rest (by omega)]
      rfl

/-! ### Number round trip -/

lemma digitChar_isDigit {k : Nat} (h : k < 10) : (Nat.digitChar k).isDigit = true := by
  interval_cases k <;> decide

lemma digitChar_toNat {k : Nat} (h : k < 10) : (Nat.digitChar k).toNat = 48 + k := by
  interval_cases k <;> decide

lemma digitsToNat_append_single (ds : List Char) (c : Char) :
    digitsToNat (ds ++ [c]) = digitsToNat ds * 10 + (c.toNat - 48) := by
  unfold digitsToNat
  rw [List.foldl_append]
  rfl

lemma natToCharsAux_succ (fuel n : Nat) :
    natToCharsAux (fuel + 1) n =
      if n < 10 then [Nat.digitChar n]
      else natToCharsAux fuel (n / 10) ++ [Nat.digitChar (n % 10)] := rfl

lemma natToCharsAux_spec :
    ∀ (fuel n : Nat), n ≤ fuel →
      (∀ c ∈ natToCharsAux (fuel + 1) n, c.isDigit = true) ∧
      digitsToNat (natToCharsAux (fuel + 1) n) = n ∧
      (∀ t, natToCharsAux (fuel + 1) n = '0' :: t → n = 0) ∧
      natToCharsAux (fuel + 1) n ≠ [] := by
  intro fuel
  induction fuel with
  | zero =>
    intro n hn
    interval_cases n
    exact ⟨by decide, rfl, fun t _ => rfl, by decide⟩
  | succ f ihf =>
    intro n hn
    by_cases h10 : n < 10
    · rw [natToCharsAux_succ, if_pos h10]
      refine ⟨?_, ?_, ?_, by simp⟩
      · intro c hc
        rcases List.mem_singleton.1 hc with rfl
        exact digitChar_isDigit h10
      · show digitsToNat ([] ++ [Nat.digitChar n]) = n
        rw [digitsToNat_append_single, digitChar_toNat h10]
        simp [digitsToNat]
      · intro t ht
        injection ht with h0 h1
        have := digitChar_toNat h10
        rw [h0] at this
        have h48 : ('0' : Char).toNat = 48 := rfl
        omega
    · rw [natToCharsAux_succ, if_neg h10]
      have hle : n / 10 ≤ f := by omega
      obtain ⟨hdig, hval, hhead, hne⟩ := ihf (n / 10) hle
      refine ⟨?_, ?_, ?_, by simp⟩
      · intro c hc
        rcases List.mem_append.1 hc with h | h
        · exact hdig c h
        · rcases List.mem_singleton.1 h with rfl
          exact digitChar_isDigit (Nat.mod_lt _ (by norm_num))
      · rw [digitsToNat_append_single, hval,
          digitChar_toNat (Nat.mod_lt _ (by norm_num))]
        omega
      · intro t ht
        obtain ⟨p0, pt, hp⟩ : ∃ p0 pt, natToCharsAux (f + 1) (n / 10) = p0 :: pt := by
          cases hq : natToCharsAux (f + 1) (n / 10) with
          | nil => exact absurd hq hne
          | cons a b => exact ⟨a, b, rfl⟩
        rw [hp, List.cons_append] at ht
        injection ht with h0 h1
        subst h0
        have := hhead pt hp
        omega

lemma takeDigits_append {ds rest : List Char} (hd : ∀ c ∈ ds, c.isDigit = true)
    (hb : numBoundaryB rest = true) : takeDigits (ds ++ rest) = (ds, rest) := by
  induction ds with
  | nil =>
    simp only [List.nil_append]
    cases rest with
    | nil => rfl
    | cons r rt =>
      simp only [numBoundaryB, Bool.not_eq_eq_eq_not, Bool.not_true,
        Bool.or_eq_false_iff] at hb
      simp only [takeDigits]
      rw [if_neg (by rw [hb.1.1.1]; exact Bool.false_ne_true)]
  | cons d dt ih =>
    simp only [List.cons_append, takeDigits, List.append_eq]
    rw [if_pos (hd d (List.mem_cons_self _ _)),
      ih (fun c hc => hd c (List.mem_cons_of_mem _ hc))]

lemma natToString_data (n : Nat) : (natToString n).data = natToCharsAux (n + 1) n := rfl

lemma parseJNat_natToString (n : Nat) {rest : List Char} (hb : numBoundaryB rest = true) :
    parseJNat ((natToString n).data ++ rest) = some (n, rest) := by
  obtain ⟨hdig, hval, hhead, hne⟩ := natToCharsAux_spec n n le_rfl
  rw [natToString_data]
  unfold parseJNat
  rw [takeDigits_append hdig hb]
  obtain ⟨d0, ds, hds⟩ : ∃ d0 ds, natToCharsAux (n + 1) n = d0 :: ds := by
    cases h : natToCharsAux (n + 1) n with
    | nil => exact absurd h hne
    | cons a b => exact ⟨a, b, rfl⟩
  rw [hds]
  have hlz : ¬(d0 = '0' ∧ ds ≠ []) := by
    rintro ⟨rfl, hne2⟩
    have h0 : n = 0 := hhead ds hds
    subst h0
    have : '0' :: ds = ['0'] := by rw [← hds]; rfl
    injection this with h1 h2
    exact hne2 h2
  show (if d0 = '0' ∧ ds ≠ [] then none
    else if numBoundaryB rest = true then some (digitsToNat (d0 :: ds), rest) else none)
    = some (n, rest)
  rw [if_neg hlz, if_pos hb, ← hds, hval]

lemma intToChars_nonneg {n : Int} (h : 0 ≤ n) :
    intToChars n = (natToString n.toNat).data := by
  unfold intToChars intToString
  rw [if_neg (by omega)]

lemma intToChars_neg {n : Int} (h : n < 0) :
    intToChars n = '-' :: (natToString n.natAbs).data := by
  unfold intToChars intToString
  rw [if_pos h, String.data_append]
  rfl

/-! ### Heads and sizes of printed values -/

lemma isJsonWs_eq_false_of_toNat {c : Char}
    (h : c.toNat ≠ 32 ∧ c.toNat ≠ 9 ∧ c.toNat ≠ 10 ∧ c.toNat ≠ 13) :
    isJsonWs c = false := by
  rw [Bool.eq_false_iff]
  intro hw
  rcases isJsonWs_toNat hw with h' | h' | h' | h' <;> omega

lemma natToString_head (n : Nat) :
    ∃ c t, (natToString n).data = c :: t ∧ c.isDigit = true := by
  obtain ⟨hdig, _, _, hne⟩ := natToCharsAux_spec n n le_rfl
  rw [natToString_data]
  cases h : natToCharsAux (n + 1) n with
  | nil => exact absurd h hne
  | cons a b =>
    refine ⟨a, b, rfl, hdig a ?_⟩
    rw [h]
    exact List.mem_cons_self _ _

lemma digit_not_ws {c : Char} (h : c.isDigit = true) : isJsonWs c = false := by
  have := isDigit_toNat h
  exact isJsonWs_eq_false_of_toNat (by omega)

lemma printVal_head_aux {c : Char} {t l : List Char} (he : l = c :: t)
    (h : isJsonWs c = false ∧ ¬ c = ']' ∧ ¬ c = '\x7d') :
    ∃ c2 t2, l = c2 :: t2 ∧ isJsonWs c2 = false ∧ ¬ c2 = ']' ∧ ¬ c2 = '\x7d' :=
  ⟨c, t, he, h.1, h.2.1, h.2.2⟩

lemma printVal_head (d : Nat) (j : Json) :
    ∃ c t, printVal d j = c :: t ∧ isJsonWs c = false ∧ ¬ c = ']' ∧ ¬ c = '\x7d' := by
  cases j with
  | null => exact printVal_head_aux rfl (by decide)
  | bool b =>
    cases b with
    | true => exact printVal_head_aux rfl (by decide)
    | false => exact printVal_head_aux rfl (by decide)
  | num n =>
    rcases lt_or_le n 0 with hn | hn
    · have he : printVal d (.num n) = '-' :: (natToString n.natAbs).data := by
        show intToChars n = _
        rw [intToChars_neg hn]
      exact printVal_head_aux he (by decide)
    · obtain ⟨c, t, hct, hdig⟩ := natToString_head n.toNat
      have htn := isDigit_toNat hdig
      refine ⟨c, t, ?_, digit_not_ws hdig, ?_, ?_⟩
      · show intToChars n = c :: t
        rw [intToChars_nonneg hn, hct]
      · exact ne_of_toNat_ne (by have h93 : (']' : Char).toNat = 93 := rfl; omega)
      · exact ne_of_toNat_ne (by have h125 : ('\x7d' : Char).toNat = 125 := rfl; omega)
  | str s => exact printVal_head_aux rfl (by decide)
  | arr items =>
    cases items with
    | nil => exact printVal_head_aux rfl (by decide)
    | cons x xs => exact printVal_head_aux rfl (by decide)
  | obj fields =>
    cases fields with
    | nil => exact printVal_head_aux rfl (by decide)
    | cons f fs => exact printVal_head_aux rfl (by decide)

lemma printListItems_cons (d : Nat) (x : Json) (xs : List Json) :
    ∃ t0, printListItems d (x :: xs) = indentChars d ++ (printVal d x ++ t0) := by
  cases xs with
  | nil => exact ⟨[], by simp [printListItems]⟩
  | cons y ys =>
    exact ⟨',' :: '\n' :: printListItems d (y :: ys), by simp [printListItems]⟩

lemma printFieldItems_head (d : Nat) (kv : String × Json) (fs : List (String × Json)) :
    ∃ t0, printFieldItems d (kv :: fs) = indentChars d ++ ('"' :: t0) := by
  obtain ⟨k, v⟩ := kv
  cases fs with
  | nil =>
    refine ⟨escapeStr k.data ++ ('"' :: ':' :: ' ' :: printVal d v), ?_⟩
    simp [printFieldItems, printKey]
  | cons g gs =>
    refine ⟨escapeStr k.data ++ ('"' :: ':' :: ' ' :: (printVal d v ++
      (',' :: '\n' :: printFieldItems d (g :: gs)))), ?_⟩
    simp [printFieldItems, printKey]

lemma jsize_pos (j : Json) : 1 ≤ jsize j := by
  cases j <;> simp [jsize] <;> omega

lemma jsizeL_pos (l : List Json) : 1 ≤ jsizeL l := by
  cases l with
  | nil => simp [jsizeL]
  | cons j rest =>
    have := jsize_pos j
    simp only [jsizeL]
    omega

lemma jsizeF_pos (l : List (String × Json)) : 1 ≤ jsizeF l := by
  cases l with
  | nil => simp [jsizeF]
  | cons f rest =>
    obtain ⟨k, v⟩ := f
    have := jsize_pos v
    simp only [jsizeF]
    omega

mutual

theorem jsize_le_print : ∀ (d : Nat) (j : Json), jsize j ≤ (printVal d j).length
  | _, .null => by simp [jsize, printVal]
  | _, .bool true => by simp [jsize, printVal]
  | _, .bool false => by simp [jsize, printVal]
  | _, .num n => by
    simp only [jsize, printVal]
    rcases lt_or_le n 0 with h | h
    · rw [intToChars_neg h]
      simp
    · rw [intToChars_nonneg h]
      obtain ⟨c, t, hct, _⟩ := natToString_head n.toNat
      rw [hct]
      simp
  | _, .str s => by
    simp only [jsize, printVal, List.length_cons, List.length_append]
    omega
  | _, .arr [] => by simp [jsize, printVal, jsizeL]
  | d, .arr (x :: xs) => by
    have h := jsizeL_le_print (d + 1) x xs
    simp only [jsize, printVal, List.length_cons, List.length_append]
    omega
  | _, .obj [] => by simp [jsize, printVal, jsizeF]
  | d, .obj (f :: fs) => by
    have h := jsizeF_le_print (d + 1) f fs
    simp only [jsize, printVal, List.length_cons, List.length_append]
    omega
termination_by d j => jsize j
decreasing_by
  all_goals simp only [jsize, jsizeL, jsizeF]
  all_goals omega

theorem jsizeL_le_print : ∀ (d : Nat) (x : Json) (xs : List Json),
    jsizeL (x :: xs) ≤ (printListItems d (x :: xs)).length + 1
  | d, x, [] => by
    have h := jsize_le_print d x
    simp only [jsizeL, printListItems, List.length_append]
    omega
  | d, x, y :: ys => by
    have h1 := jsize_le_print d x
    have h2 := jsizeL_le_print d y ys
    simp only [jsizeL] at h2
    simp only [jsizeL, printListItems, List.length_append, List.length_cons]
    omega
termination_by d x xs => jsizeL (x :: xs)
decreasing_by
  all_goals simp only [jsize, jsizeL, jsizeF]
  all_goals
    first
      | omega
      | (have hp1 := jsize_pos x; omega)
      | (have hp1 := jsize_pos y; omega)

theorem jsizeF_le_print : ∀ (d : Nat) (kv : String × Json) (fs : List (String × Json)),
    jsizeF (kv :: fs) ≤ (printFieldItems d (kv :: fs)).length + 1
  | d, (k, v), [] => by
    have h := jsize_le_print d v
    simp only [jsizeF, printFieldItems, List.length_append, List.length_cons]
    omega
  | d, (k, v), (k2, v2) :: gs => by
    have h1 := jsize_le_print d v
    have h2 := jsizeF_le_print d (k2, v2) gs
    simp only [jsizeF] at h2
    simp only [jsizeF, printFieldItems, List.length_append, List.length_cons]
    omega
termination_by d kv fs => jsizeF (kv :: fs)
decreasing_by
  all_goals simp only [jsize, jsizeL, jsizeF]
  all_goals
    first
      | omega
      | (have hp1 := jsize_pos v; omega)
      | (have hp1 := jsizeF_pos gs; omega)

end

/-! ### The printer/parser round trip -/

lemma skipWs_cons_ws {c : Char} {l : List Char} (h : isJsonWs c = true) :
    skipWs (c :: l) = skipWs l :=
  List.dropWhile_cons_of_pos h

/-- Round-trip statement for values at a given fuel. -/
def RTvP (fuel : Nat) : Prop :=
  ∀ (d : Nat) (j : Json) (ws rest : List Char), allWs ws → numBoundaryB rest = true →
    jsize j < fuel → parseVal fuel (ws ++ (printVal d j ++ rest)) = some (j, rest)

/-- Round-trip statement for nonempty array bodies at a given fuel. -/
def RTlP (fuel : Nat) : Prop :=
  ∀ (d d2 : Nat) (x : Json) (xs : List Json) (ws rest : List Char), allWs ws →
    jsizeL (x :: xs) < fuel →
    parseArrItems fuel (ws ++ (printListItems d (x :: xs)
      ++ ('\n' :: (indentChars d2 ++ (']' :: rest))))) = some (x :: xs, rest)

/-- Round-trip statement for nonempty object bodies at a given fuel. -/
def RTfP (fuel : Nat) : Prop :=
  ∀ (d d2 : Nat) (kv : String × Json) (fs : List (String × Json)) (ws rest : List Char),
    allWs ws → jsizeF (kv :: fs) < fuel →
    parseObjFields fuel (ws ++ (printFieldItems d (kv :: fs)
      ++ ('\n' :: (indentChars d2 ++ ('\x7d' :: rest))))) = some (kv :: fs, rest)

lemma RTv_succ {f : Nat} (hl : RTlP f) (hf : RTfP f) : RTvP (f + 1) := by
  intro d j ws rest hws hb hsz
  cases j with
  | null =>
    have hsk : skipWs (ws ++ (printVal d .null ++ rest))
        = 'n' :: ('u' :: 'l' :: 'l' :: rest) := by
      rw [skipWs_append_ws hws]
      rfl
    simp only [parseVal]
    rw [hsk]
    simp only [reduceIte]
  | bool b =>
    cases b with
    | true =>
      have hsk : skipWs (ws ++ (printVal d (.bool true) ++ rest))
          = 't' :: ('r' :: 'u' :: 'e' :: rest) := by
        rw [skipWs_append_ws hws]
        rfl
      simp only [parseVal]
      rw [hsk]
      simp only [reduceIte]
      rw [if_neg (by decide : ¬(('t' : Char) = 'n'))]
    | false =>
      have hsk : skipWs (ws ++ (printVal d (.bool false) ++ rest))
          = 'f' :: ('a' :: 'l' :: 's' :: 'e' :: rest) := by
        rw [skipWs_append_ws hws]
        rfl
      simp only [parseVal]
      rw [hsk]
      simp only [reduceIte]
      rw [if_neg (by decide : ¬(('f' : Char) = 'n')),
        if_neg (by decide : ¬(('f' : Char) = 't'))]
  | num n =>
    rcases lt_or_le n 0 with hneg | hpos
    · have hd : printVal d (.num n) = '-' :: (natToString n.natAbs).data := by
        show intToChars n = _
        exact intToChars_neg hneg
      rw [hd]
      simp only [List.cons_append]
      have hsk : skipWs (ws ++ ('-' :: ((natToString n.natAbs).data ++ rest)))
          = '-' :: ((natToString n.natAbs).data ++ rest) := by
        rw [skipWs_append_ws hws]
        exact skipWs_cons_not (by decide)
      simp only [parseVal]
      rw [hsk]
      simp only [reduceIte]
      rw [if_neg (by decide : ¬(('-' : Char) = 'n')),
        if_neg (by decide : ¬(('-' : Char) = 't')),
        if_neg (by decide : ¬(('-' : Char) = 'f')),
        if_neg (by decide : ¬(('-' : Char) = '"')),
        if_neg (by decide : ¬(('-' : Char) = '[')),
        if_neg (by decide : ¬(('-' : Char) = '\x7b'))]
      rw [parseJNat_natToString n.natAbs hb]
      show some (Json.num (-(n.natAbs : Int)), rest) = some (.num n, rest)
      have hh : -((n.natAbs : Int)) = n := by omega
      rw [hh]
    · obtain ⟨c, t, hct, hdig⟩ := natToString_head n.toNat
      have hd : printVal d (.num n) = c :: t := by
        show intToChars n = _
        rw [intToChars_nonneg hpos, hct]
      rw [hd]
      simp only [List.cons_append]
      have hsk : skipWs (ws ++ (c :: (t ++ rest))) = c :: (t ++ rest) := by
        rw [skipWs_append_ws hws]
        exact skipWs_cons_not (digit_not_ws hdig)
      simp only [parseVal]
      rw [hsk]
      simp only [reduceIte]
      have htn := isDigit_toNat hdig
      have hcn : ('n' : Char).toNat = 110 := rfl
      have hctc : ('t' : Char).toNat = 116 := rfl
      have hcf : ('f' : Char).toNat = 102 := rfl
      have hcq : ('"' : Char).toNat = 34 := rfl
      have hcl : ('[' : Char).toNat = 91 := rfl
      have hco : ('\x7b' : Char).toNat = 123 := rfl
      have hcm : ('-' : Char).toNat = 45 := rfl
      rw [if_neg (ne_of_toNat_ne (by omega)), if_neg (ne_of_toNat_ne (by omega)),
        if_neg (ne_of_toNat_ne (by omega)), if_neg (ne_of_toNat_ne (by omega)),
        if_neg (ne_of_toNat_ne (by omega)), if_neg (ne_of_toNat_ne (by omega)),
        if_neg (ne_of_toNat_ne (by omega)), if_pos hdig]
      rw [show c :: (t ++ rest) = (c :: t) ++ rest from rfl, ← hct,
        parseJNat_natToString n.toNat hb]
      show some (Json.num ((n.toNat : Nat) : Int), rest) = some (.num n, rest)
      have hh : ((n.toNat : Nat) : Int) = n := by omega
      rw [hh]
  | str str =>
    simp only [printVal, List.cons_append, List.append_assoc, List.singleton_append,
        List.nil_append]
    have hsk : skipWs (ws ++ ('"' :: (escapeStr str.data ++ '"' :: rest)))
        = '"' :: (escapeStr str.data ++ '"' :: rest) := by
      rw [skipWs_append_ws hws]
      exact skipWs_cons_not (by decide)
    simp only [parseVal]
    rw [hsk]
    simp only [reduceIte]
    rw [if_neg (by decide : ¬(('"' : Char) = 'n')),
      if_neg (by decide : ¬(('"' : Char) = 't')),
      if_neg (by decide : ¬(('"' : Char) = 'f'))]
    rw [parseJString_escapeStr str.data _ rest
      (by simp only [List.length_append, List.length_cons]; omega)]
    rfl
  | arr items =>
    cases items with
    | nil =>
      simp only [printVal, List.cons_append, List.nil_append]
      have hsk : skipWs (ws ++ ('[' :: ']' :: rest)) = '[' :: ']' :: rest := by
        rw [skipWs_append_ws hws]
        exact skipWs_cons_not (by decide)
      simp only [parseVal]
      rw [hsk]
      simp only [reduceIte]
      rw [if_neg (by decide : ¬(('[' : Char) = 'n')),
        if_neg (by decide : ¬(('[' : Char) = 't')),
        if_neg (by decide : ¬(('[' : Char) = 'f')),
        if_neg (by decide : ¬(('[' : Char) = '"'))]
      rw [skipWs_cons_not (by decide : isJsonWs ']' = false)]
      simp only [reduceIte]
    | cons x xs =>
      obtain ⟨t0, hpli⟩ := printListItems_cons (d + 1) x xs
      obtain ⟨c0, tx, hx, hxws, hxbr, _⟩ := printVal_head (d + 1) x
      simp only [printVal, List.cons_append, List.append_assoc, List.singleton_append,
        List.nil_append]
      have hskA : skipWs (ws ++ ('[' :: '\n' :: (printListItems (d + 1) (x :: xs)
          ++ ('\n' :: (indentChars d ++ (']' :: rest))))))
          = '[' :: '\n' :: (printListItems (d + 1) (x :: xs)
            ++ ('\n' :: (indentChars d ++ (']' :: rest)))) := by
        rw [skipWs_append_ws hws]
        exact skipWs_cons_not (by decide)
      simp only [parseVal]
      rw [hskA]
      simp only [reduceIte]
      rw [if_neg (by decide : ¬(('[' : Char) = 'n')),
        if_neg (by decide : ¬(('[' : Char) = 't')),
        if_neg (by decide : ¬(('[' : Char) = 'f')),
        if_neg (by decide : ¬(('[' : Char) = '"'))]
      have hskB : skipWs ('\n' :: (printListItems (d + 1) (x :: xs)
          ++ ('\n' :: (indentChars d ++ (']' :: rest)))))
          = c0 :: (tx ++ (t0 ++ ('\n' :: (indentChars d ++ (']' :: rest))))) := by
        rw [skipWs_cons_ws (by decide), hpli, List.append_assoc,
          skipWs_append_ws (allWs_indent _), List.append_assoc, hx, List.cons_append]
        exact skipWs_cons_not hxws
      rw [hskB]
      simp only [reduceIte]
      rw [if_neg hxbr]
      have H := hl (d + 1) d x xs ['\n'] rest allWs_newline
        (by simp only [jsize] at hsz; omega)
      simp only [List.singleton_append] at H
      rw [H]
      rfl
  | obj fields =>
    cases fields with
    | nil =>
      simp only [printVal, List.cons_append, List.nil_append]
      have hsk : skipWs (ws ++ ('\x7b' :: '\x7d' :: rest)) = '\x7b' :: '\x7d' :: rest := by
        rw [skipWs_append_ws hws]
        exact skipWs_cons_not (by decide)
      simp only [parseVal]
      rw [hsk]
      simp only [reduceIte]
      rw [if_neg (by decide : ¬(('\x7b' : Char) = 'n')),
        if_neg (by decide : ¬(('\x7b' : Char) = 't')),
        if_neg (by decide : ¬(('\x7b' : Char) = 'f')),
        if_neg (by decide : ¬(('\x7b' : Char) = '"')),
        if_neg (by decide : ¬(('\x7b' : Char) = '['))]
      rw [skipWs_cons_not (by decide : isJsonWs '\x7d' = false)]
      simp only [reduceIte]
    | cons kv fs =>
      obtain ⟨t0, hpfi⟩ := printFieldItems_head (d + 1) kv fs
      simp only [printVal, List.cons_append, List.append_assoc, List.singleton_append,
        List.nil_append]
      have hskA : skipWs (ws ++ ('\x7b' :: '\n' :: (printFieldItems (d + 1) (kv :: fs)
          ++ ('\n' :: (indentChars d ++ ('\x7d' :: rest))))))
          = '\x7b' :: '\n' :: (printFieldItems (d + 1) (kv :: fs)
            ++ ('\n' :: (indentChars d ++ ('\x7d' :: rest)))) := by
        rw [skipWs_append_ws hws]
        exact skipWs_cons_not (by decide)
      simp only [parseVal]
      rw [hskA]
      simp only [reduceIte]
      rw [if_neg (by decide : ¬(('\x7b' : Char) = 'n')),
        if_neg (by decide : ¬(('\x7b' : Char) = 't')),
        if_neg (by decide : ¬(('\x7b' : Char) = 'f')),
        if_neg (by decide : ¬(('\x7b' : Char) = '"')),
        if_neg (by decide : ¬(('\x7b' : Char) = '['))]
      have hskB : skipWs ('\n' :: (printFieldItems (d + 1) (kv :: fs)
          ++ ('\n' :: (indentChars d ++ ('\x7d' :: rest)))))
          = '"' :: (t0 ++ ('\n' :: (indentChars d ++ ('\x7d' :: rest)))) := by
        rw [skipWs_cons_ws (by decide), hpfi, List.append_assoc,
          skipWs_append_ws (allWs_indent _), List.cons_append]
        exact skipWs_cons_not (by decide)
      rw [hskB]
      simp only [reduceIte]
      have H := hf (d + 1) d kv fs ['\n'] rest allWs_newline
        (by simp only [jsize] at hsz; omega)
      simp only [List.singleton_append] at H
      rw [H]
      rfl

lemma RTl_succ {f : Nat} (hv : RTvP f) (hl : RTlP f) : RTlP (f + 1) := by
  intro d d2 x xs ws rest hws hsz
  cases xs with
  | nil =>
    simp only [printListItems, List.append_assoc]
    rw [← List.append_assoc ws (indentChars d)]
    simp only [parseArrItems]
    rw [hv d x (ws ++ indentChars d) ('\n' :: (indentChars d2 ++ (']' :: rest)))
      (allWs_append hws (allWs_indent d)) (by rfl)
      (by simp only [jsizeL] at hsz; omega)]
    simp only [reduceIte]
    have hsk : skipWs ('\n' :: (indentChars d2 ++ (']' :: rest))) = ']' :: rest := by
      rw [skipWs_cons_ws (by decide), skipWs_append_ws (allWs_indent _)]
      exact skipWs_cons_not (by decide)
    rw [hsk]
    simp only [reduceIte]
    rw [if_neg (by decide : ¬((']' : Char) = ','))]
  | cons y ys =>
    simp only [printListItems, List.append_assoc, List.cons_append]
    rw [← List.append_assoc ws (indentChars d)]
    simp only [parseArrItems]
    rw [hv d x (ws ++ indentChars d)
      (',' :: '\n' :: (printListItems d (y :: ys)
        ++ ('\n' :: (indentChars d2 ++ (']' :: rest)))))
      (allWs_append hws (allWs_indent d)) (by rfl)
      (by simp only [jsizeL] at hsz
          have h1 := jsize_pos y
          have h2 := jsizeL_pos ys
          omega)]
    simp only [reduceIte]
    rw [skipWs_cons_not (by decide : isJsonWs ',' = false)]
    simp only [reduceIte]
    have H := hl d d2 y ys ['\n'] rest allWs_newline
      (by simp only [jsizeL] at hsz ⊢
          have := jsize_pos x
          omega)
    simp only [List.singleton_append] at H
    rw [H]
    rfl

lemma RTf_succ {f : Nat} (hv : RTvP f) (hf : RTfP f) : RTfP (f + 1) := by
  intro d d2 kv fs ws rest hws hsz
  obtain ⟨k, v⟩ := kv
  cases fs with
  | nil =>
    simp only [printFieldItems, printKey, List.append_assoc, List.cons_append,
      List.singleton_append, List.nil_append]
    simp only [parseObjFields]
    have hsk : skipWs (ws ++ (indentChars d ++ ('"' :: (escapeStr k.data
        ++ '"' :: ':' :: ' ' :: (printVal d v
          ++ '\n' :: (indentChars d2 ++ '\x7d' :: rest))))))
        = '"' :: (escapeStr k.data ++ '"' :: ':' :: ' ' :: (printVal d v
          ++ '\n' :: (indentChars d2 ++ '\x7d' :: rest))) := by
      rw [skipWs_append_ws hws, skipWs_append_ws (allWs_indent _)]
      exact skipWs_cons_not (by decide)
    rw [hsk]
    simp only [reduceIte]
    rw [parseJString_escapeStr k.data _ _
      (by simp only [List.length_append, List.length_cons]; omega)]
    simp only [reduceIte]
    rw [skipWs_cons_not (by decide : isJsonWs ':' = false)]
    simp only [reduceIte]
    have H := hv d v [' ']
      ('\n' :: (indentChars d2 ++ '\x7d' :: rest)) allWs_space (by rfl)
      (by simp only [jsizeF] at hsz; omega)
    simp only [List.singleton_append] at H
    rw [H]
    simp only [reduceIte]
    have hskX : skipWs ('\n' :: (indentChars d2 ++ '\x7d' :: rest))
        = '\x7d' :: rest := by
      rw [skipWs_cons_ws (by decide), skipWs_append_ws (allWs_indent _)]
      exact skipWs_cons_not (by decide)
    rw [hskX]
    simp only [reduceIte]
    rw [if_neg (by decide : ¬(('\x7d' : Char) = ','))]
  | cons g gs =>
    simp only [printFieldItems, printKey, List.append_assoc, List.cons_append,
      List.singleton_append, List.nil_append]
    simp only [parseObjFields]
    have hsk : skipWs (ws ++ (indentChars d ++ ('"' :: (escapeStr k.data
        ++ '"' :: ':' :: ' ' :: (printVal d v
          ++ ',' :: '\n' :: (printFieldItems d (g :: gs)
            ++ '\n' :: (indentChars d2 ++ '\x7d' :: rest)))))))
        = '"' :: (escapeStr k.data ++ '"' :: ':' :: ' ' :: (printVal d v
          ++ ',' :: '\n' :: (printFieldItems d (g :: gs)
            ++ '\n' :: (indentChars d2 ++ '\x7d' :: rest)))) := by
      rw [skipWs_append_ws hws, skipWs_append_ws (allWs_indent _)]
      exact skipWs_cons_not (by decide)
    rw [hsk]
    simp only [reduceIte]
    rw [parseJString_escapeStr k.data _ _
      (by simp only [List.length_append, List.length_cons]; omega)]
    simp only [reduceIte]
    rw [skipWs_cons_not (by decide : isJsonWs ':' = false)]
    simp only [reduceIte]
    have H := hv d v [' ']
      (',' :: '\n' :: (printFieldItems d (g :: gs)
        ++ '\n' :: (indentChars d2 ++ '\x7d' :: rest)))
      allWs_space (by rfl)
      (by simp only [jsizeF] at hsz
          obtain ⟨k2, v2⟩ := g
          simp only [jsizeF] at hsz
          have h1 := jsize_pos v2
          have h2 := jsizeF_pos gs
          omega)
    simp only [List.singleton_append] at H
    rw [H]
    simp only [reduceIte]
    rw [skipWs_cons_not (by decide : isJsonWs ',' = false)]
    simp only [reduceIte]
    have H2 := hf d d2 g gs ['\n'] rest allWs_newline
      (by simp only [jsizeF] at hsz ⊢
          have := jsize_pos v
          omega)
    simp only [List.singleton_append] at H2
    rw [H2]
    rfl

/-- Any fuel level satisfies all three round-trip statements. -/
theorem RT_master : ∀ fuel, RTvP fuel ∧ RTlP fuel ∧ RTfP fuel := by
  intro fuel
  induction fuel with
  | zero =>
    refine ⟨fun d j ws rest _ _ h => absurd h (by omega),
      fun d d2 x xs ws rest _ h => absurd h (by omega),
      fun d d2 kv fs ws rest _ h => absurd h (by omega)⟩
  | succ f ih =>
    exact ⟨RTv_succ ih.2.1 ih.2.2, RTl_succ ih.1 ih.2.1, RTf_succ ih.1 ih.2.2⟩

/-- Writing a JSON value as `write_manifest` does and loading the file text
back with `json.loads` succeeds and returns the value with all object keys
recursively sorted. -/
theorem loads_writeManifestText (j : Json) :
    loadsJson (writeManifestText j) = some (canonJson j) := by
  have RT := (RT_master ((printVal 0 (canonJson j)).length + 1 + 1)).1 0 (canonJson j)
    [] ['\n'] allWs_nil (by rfl)
    (by have := jsize_le_print 0 (canonJson j); omega)
  simp only [List.nil_append] at RT
  unfold loadsJson writeManifestText dumpsJson
  have hdata : (String.mk (printVal 0 (canonJson j)) ++ "\n").data
      = printVal 0 (canonJson j) ++ ['\n'] := by
    rw [String.data_append]
  have hlen : (String.mk (printVal 0 (canonJson j)) ++ "\n").length
      = (printVal 0 (canonJson j)).length + 1 := by
    rw [String.length_append]
    rfl
  rw [hdata, hlen, RT]
  rfl

/-! ### Logical equivalence of JSON values (same content up to object key
order) and determinism of the serializer -/

lemma pyStrLt_of_le_of_ne {a b : String} (hle : pyStrLe a b = true) (hne : a ≠ b) :
    pyStrLt a b = true := by
  simp only [pyStrLe, Bool.not_eq_eq_eq_not, Bool.not_true] at hle
  rcases charListLt_or_eq_of_not_lt hle with h | h
  · exact h
  · exfalso
    apply hne
    rcases a with ⟨da⟩
    rcases b with ⟨db⟩
    exact (congrArg String.mk h).symm

instance : IsTotal (String × Json) (fun a b => pyStrLe a.1 b.1 = true) :=
  ⟨fun a b => @IsTotal.total String (fun s t => pyStrLe s t = true) _ a.1 b.1⟩

instance : IsTrans (String × Json) (fun a b => pyStrLe a.1 b.1 = true) :=
  ⟨fun a b c hab hbc =>
    @IsTrans.trans String (fun s t => pyStrLe s t = true) _ a.1 b.1 c.1 hab hbc⟩

instance : IsAntisymm (String × Json) (fun a b => pyStrLt a.1 b.1 = true) := by
  constructor
  intro a b h1 h2
  exfalso
  simp only [pyStrLt] at h1 h2
  have hf := charListLt_asymm _ _ h1
  rw [h2] at hf
  cases hf

lemma sorted_le_lt {l : List (String × Json)}
    (hs : List.Sorted (fun a b => pyStrLe a.1 b.1 = true) l)
    (hn : (l.map Prod.fst).Nodup) :
    List.Sorted (fun a b => pyStrLt a.1 b.1 = true) l := by
  have hp : l.Pairwise (fun a b => a.1 ≠ b.1) := List.pairwise_map.1 hn
  have hand := List.Pairwise.and hs hp
  exact hand.imp (fun h => pyStrLt_of_le_of_ne h.1 h.2)

lemma canonFields_eq_map (l : List (String × Json)) :
    canonFields l = l.map (fun p => (p.1, canonJson p.2)) := by
  induction l with
  | nil => rfl
  | cons q qs ih =>
    obtain ⟨k, v⟩ := q
    simp only [canonFields, List.map_cons, ih]

lemma keys_canonFields (l : List (String × Json)) :
    (canonFields l).map Prod.fst = l.map Prod.fst := by
  rw [canonFields_eq_map, List.map_map]
  rfl

lemma jsizeF_map_sum : ∀ l : List (String × Json),
    jsizeF l = 1 + (l.map (fun p => jsize p.2)).sum := by
  intro l
  induction l with
  | nil => simp [jsizeF]
  | cons q qs ih =>
    obtain ⟨k, v⟩ := q
    simp only [jsizeF, List.map_cons, List.sum_cons, ih]
    omega

lemma jsizeF_perm {l l' : List (String × Json)} (h : l.Perm l') :
    jsizeF l = jsizeF l' := by
  rw [jsizeF_map_sum, jsizeF_map_sum, (h.map _).sum_eq]

mutual

/-- Well-formed JSON value as produced from a Python object: every object
has pairwise-distinct keys (Python dicts cannot hold duplicates). -/
inductive WfJson : Json → Prop where
  | null : WfJson .null
  | bool (b : Bool) : WfJson (.bool b)
  | num (n : Int) : WfJson (.num n)
  | str (s : String) : WfJson (.str s)
  | arr {xs : List Json} : WfJsonL xs → WfJson (.arr xs)
  | obj {fs : List (String × Json)} :
      (fs.map Prod.fst).Nodup → WfJsonF fs → WfJson (.obj fs)

inductive WfJsonL : List Json → Prop where
  | nil : WfJsonL []
  | cons {x : Json} {xs : List Json} : WfJson x → WfJsonL xs → WfJsonL (x :: xs)

inductive WfJsonF : List (String × Json) → Prop where
  | nil : WfJsonF []
  | cons {k : String} {v : Json} {fs : List (String × Json)} :
      WfJson v → WfJsonF fs → WfJsonF ((k, v) :: fs)

end

mutual

/-- Same logical content: equal scalars, pointwise-equivalent arrays, and
objects whose field lists agree up to a permutation (key order). -/
inductive JsonEquiv : Json → Json → Prop where
  | null : JsonEquiv .null .null
  | bool (b : Bool) : JsonEquiv (.bool b) (.bool b)
  | num (n : Int) : JsonEquiv (.num n) (.num n)
  | str (s : String) : JsonEquiv (.str s) (.str s)
  | arr {xs ys : List Json} : JsonEquivL xs ys → JsonEquiv (.arr xs) (.arr ys)
  | obj {a mid b : List (String × Json)} :
      a.Perm mid → JsonEquivF mid b → JsonEquiv (.obj a) (.obj b)

inductive JsonEquivL : List Json → List Json → Prop where
  | nil : JsonEquivL [] []
  | cons {x y : Json} {xs ys : List Json} :
      JsonEquiv x y → JsonEquivL xs ys → JsonEquivL (x :: xs) (y :: ys)

inductive JsonEquivF : List (String × Json) → List (String × Json) → Prop where
  | nil : JsonEquivF [] []
  | cons {k : String} {v w : Json} {fs gs : List (String × Json)} :
      JsonEquiv v w → JsonEquivF fs gs → JsonEquivF ((k, v) :: fs) ((k, w) :: gs)

end

mutual

/-- Sorting the keys does not change the logical content. -/
theorem canonJson_equiv : ∀ (j : Json), JsonEquiv (canonJson j) j
  | .null => .null
  | .bool b => .bool b
  | .num n => .num n
  | .str s => .str s
  | .arr xs => .arr (canonList_equiv xs)
  | .obj fs => .obj (List.perm_insertionSort _ _) (canonFields_equiv fs)

theorem canonList_equiv : ∀ (l : List Json), JsonEquivL (canonList l) l
  | [] => .nil
  | x :: xs => .cons (canonJson_equiv x) (canonList_equiv xs)

theorem canonFields_equiv : ∀ (l : List (String × Json)),
    JsonEquivF (canonFields l) l
  | [] => .nil
  | (k, v) :: fs => .cons (canonJson_equiv v) (canonFields_equiv fs)

end

lemma wfF_forall : ∀ {fs : List (String × Json)}, WfJsonF fs → ∀ p ∈ fs, WfJson p.2 := by
  intro fs
  induction fs with
  | nil =>
    intro _ p hp
    exact absurd hp (List.not_mem_nil p)
  | cons q qs ih =>
    intro h p hp
    cases h with
    | cons hv hfs =>
      rcases List.mem_cons.1 hp with rfl | hp2
      · exact hv
      · exact ih hfs p hp2

lemma canonL_eq_aux {N : Nat}
    (ih : ∀ j j', jsize j ≤ N → JsonEquiv j j' → WfJson j → WfJson j' →
      canonJson j = canonJson j') :
    ∀ xs ys, jsizeL xs ≤ N + 1 → JsonEquivL xs ys → WfJsonL xs → WfJsonL ys →
      canonList xs = canonList ys := by
  intro xs
  induction xs with
  | nil =>
    intro ys _ he _ _
    cases he
    rfl
  | cons x xs ihx =>
    intro ys hsz he hw hw'
    cases he with
    | cons hxy hrest =>
      cases hw with
      | cons hwx hwxs =>
        cases hw' with
        | cons hwy hwys =>
          simp only [canonList]
          simp only [jsizeL] at hsz
          have h1 := jsizeL_pos xs
          have h2 := jsize_pos x
          rw [ih x _ (by omega) hxy hwx hwy, ihx _ (by omega) hrest hwxs hwys]

lemma canonF_eq_aux {N : Nat}
    (ih : ∀ j j', jsize j ≤ N → JsonEquiv j j' → WfJson j → WfJson j' →
      canonJson j = canonJson j') :
    ∀ fs gs, jsizeF fs ≤ N + 1 → JsonEquivF fs gs →
      (∀ p ∈ fs, WfJson p.2) → (∀ p ∈ gs, WfJson p.2) →
      canonFields fs = canonFields gs := by
  intro fs
  induction fs with
  | nil =>
    intro gs _ he _ _
    cases he
    rfl
  | cons q qs ihq =>
    intro gs hsz he hw hw'
    cases he with
    | cons hvw hrest =>
      rename_i k v w gs2
      simp only [canonFields]
      simp only [jsizeF] at hsz
      have h2 := jsizeF_pos qs
      have h3 := jsize_pos v
      rw [ih _ _ (by omega) hvw
          (hw _ (List.mem_cons_self _ _)) (hw' _ (List.mem_cons_self _ _)),
        ihq _ (by omega) hrest
          (fun p hp => hw p (List.mem_cons_of_mem _ hp))
          (fun p hp => hw' p (List.mem_cons_of_mem _ hp))]

theorem canon_eq_master : ∀ (N : Nat) (j j' : Json), jsize j ≤ N → JsonEquiv j j' →
    WfJson j → WfJson j' → canonJson j = canonJson j' := by
  intro N
  induction N with
  | zero =>
    intro j j' hsz _ _ _
    have := jsize_pos j
    omega
  | succ N ih =>
    intro j j' hsz he hw hw'
    cases he with
    | null => rfl
    | bool b => rfl
    | num n => rfl
    | str s => rfl
    | arr hL =>
      cases hw with
      | arr hwl =>
        cases hw' with
        | arr hwl' =>
          simp only [canonJson]
          rw [canonL_eq_aux ih _ _ (by simp only [jsize] at hsz; omega) hL hwl hwl']
    | obj hp hF =>
      cases hw with
      | obj hna hwa =>
        cases hw' with
        | obj hnb hwb =>
          simp only [canonJson]
          rename_i a mid b
          have hmid_wf : ∀ p ∈ mid, WfJson p.2 :=
            fun p hpm => wfF_forall hwa p (hp.symm.subset hpm)
          have hszf : jsizeF mid ≤ N + 1 := by
            rw [← jsizeF_perm hp]
            simp only [jsize] at hsz
            omega
          have hCF : canonFields mid = canonFields b :=
            canonF_eq_aux ih mid b hszf hF hmid_wf (wfF_forall hwb)
          have hperm : (canonFields a).Perm (canonFields b) := by
            rw [canonFields_eq_map a, ← hCF, canonFields_eq_map mid]
            exact hp.map _
          have hpa : (List.insertionSort (fun p q => pyStrLe p.1 q.1 = true)
              (canonFields a)).Perm (List.insertionSort
                (fun p q => pyStrLe p.1 q.1 = true) (canonFields b)) :=
            ((List.perm_insertionSort _ _).trans hperm).trans
              (List.perm_insertionSort _ _).symm
          have hnda : ((List.insertionSort (fun p q => pyStrLe p.1 q.1 = true)
              (canonFields a)).map Prod.fst).Nodup := by
            rw [((List.perm_insertionSort _ _).map Prod.fst).nodup_iff,
              keys_canonFields]
            exact hna
          have hndb : ((List.insertionSort (fun p q => pyStrLe p.1 q.1 = true)
              (canonFields b)).map Prod.fst).Nodup := by
            rw [((List.perm_insertionSort _ _).map Prod.fst).nodup_iff,
              keys_canonFields]
            exact hnb
          exact congrArg Json.obj (List.eq_of_perm_of_sorted hpa
            (sorted_le_lt (List.sorted_insertionSort _ _) hnda)
            (sorted_le_lt (List.sorted_insertionSort _ _) hndb))

/-- Claim C9: writing a manifest with `write_manifest` (`json.dumps` with
`indent=2, sort_keys=True` plus a newline) and loading the file back with
`json.loads` reproduces the same logical content — the loaded value is the
written one with object keys recursively sorted, which is logically
equivalent (same repo value and same wheel records, independent of JSON key
order) to the original; and two saves of logically-identical well-formed
manifests produce byte-identical file text. -/
theorem claim_C9_roundtrip :
    (∀ j : Json, loadsJson (writeManifestText j) = some (canonJson j)
      ∧ JsonEquiv (canonJson j) j) ∧
    (∀ j j' : Json, WfJson j → WfJson j' → JsonEquiv j j' →
      writeManifestText j = writeManifestText j') := by
  constructor
  · intro j
    exact ⟨loads_writeManifestText j, canonJson_equiv j⟩
  · intro j j' hw hw' he
    unfold writeManifestText dumpsJson
    rw [canon_eq_master (jsize j) j j' le_rfl he hw hw']

def j0C9 : Json := .obj [("b", .num 1), ("a", .str "x")]

def j1C9 : Json := .obj [("a", .str "x"), ("b", .num 1)]

/-- Witness for claim C9 at a concrete manifest object: the round trip and
the byte-identity of the two key orders. -/
theorem claim_C9_roundtrip_witness :
    loadsJson (writeManifestText j0C9) = some (canonJson j0C9)
    ∧ writeManifestText j0C9 = writeManifestText j1C9 :=
  ⟨(claim_C9_roundtrip.1 j0C9).1,
    claim_C9_roundtrip.2 j0C9 j1C9
      (WfJson.obj (by decide) (.cons (.num 1) (.cons (.str "x") .nil)))
      (WfJson.obj (by decide) (.cons (.str "x") (.cons (.num 1) .nil)))
      (JsonEquiv.obj (List.Perm.swap ("a", Json.str "x") ("b", Json.num 1) [])
        (JsonEquivF.cons (.str "x") (JsonEquivF.cons (.num 1) .nil)))⟩

end WhlIndex
